import Mathlib

/-!
Verification of the K-Hop Neighborhood Graph Explorer
(`app/tools/database_graph.py` and the ranking entry point
`explore_k_hop_neighborhood` of `app/tools/database_tools.py`).

The Python classes are shallowly embedded: dictionaries become association
lists, `defaultdict(list)` indexing becomes an explicit state-passing
operation (`ddIndex`) so that the "reads do not grow the default-dicts"
property is provable rather than assumed, `set` objects become lists with
membership checks, floats (confidence, relevance scores) become rationals
(all values involved are small exact decimals), and the two BFS `while`
loops become fuel-indexed recursions whose fuel exceeds the number of
iterations the Python loop can perform (each iteration pops one queue entry,
and at most `1 + total number of adjacency pairs` entries are ever pushed,
since a push marks a fresh table as visited).
-/

/-! ### Association-list maps (Python `dict` / `defaultdict(list)`) -/

def lookupA {κ α : Type} [DecidableEq κ] : List (κ × α) → κ → Option α
  | [], _ => none
  | (k, v) :: rest, key => if k = key then some v else lookupA rest key

def containsA {κ α : Type} [DecidableEq κ] (d : List (κ × α)) (k : κ) : Bool :=
  (lookupA d k).isSome

/-- Python `d[k] = v` on a plain dict: overwrite in place, else append. -/
def setA {κ α : Type} [DecidableEq κ] : List (κ × α) → κ → α → List (κ × α)
  | [], k, v => [(k, v)]
  | (k', v') :: rest, k, v =>
    if k' = k then (k, v) :: rest else (k', v') :: setA rest k v

/-- Python `d[k]` on a `defaultdict(list)`: a read that INSERTS an empty
list when the key is missing.  Returns the value and the possibly grown map. -/
def ddIndex {κ α : Type} [DecidableEq κ] (d : List (κ × List α)) (k : κ) :
    List α × List (κ × List α) :=
  match lookupA d k with
  | some v => (v, d)
  | none => ([], d ++ [(k, [])])

/-- The guarded access pattern `if k in d: ... d[k] ...` used by every read
operation of `DatabaseGraph`. -/
def guardedIndex {κ α : Type} [DecidableEq κ] (d : List (κ × List α)) (k : κ) :
    List α × List (κ × List α) :=
  if containsA d k then ddIndex d k else ([], d)

/-- Python `d[k].append(v)` on a `defaultdict(list)`. -/
def ddAppend {κ α : Type} [DecidableEq κ] : List (κ × List α) → κ → α → List (κ × List α)
  | [], k, v => [(k, [v])]
  | (k', vs) :: rest, k, v =>
    if k' = k then (k', vs ++ [v]) :: rest else (k', vs) :: ddAppend rest k v

/-- The list stored under key `k` (empty when absent). -/
def entriesAt {κ α : Type} [DecidableEq κ] (d : List (κ × List α)) (k : κ) : List α :=
  (lookupA d k).getD []

theorem guardedIndex_eq {κ α : Type} [DecidableEq κ] (d : List (κ × List α)) (k : κ) :
    guardedIndex d k = (entriesAt d k, d) := by
  unfold guardedIndex ddIndex containsA entriesAt
  cases h : lookupA d k <;> simp [h]

theorem entriesAt_ddAppend_self {κ α : Type} [DecidableEq κ]
    (d : List (κ × List α)) (k : κ) (v : α) :
    entriesAt (ddAppend d k v) k = entriesAt d k ++ [v] := by
  induction d with
  | nil => simp [ddAppend, entriesAt, lookupA]
  | cons hd rest ih =>
    obtain ⟨k', vs⟩ := hd
    by_cases hk : k' = k
    · subst hk
      simp [ddAppend, entriesAt, lookupA]
    · simp [ddAppend, entriesAt, lookupA, hk] at ih ⊢
      exact ih

theorem entriesAt_ddAppend_ne {κ α : Type} [DecidableEq κ]
    (d : List (κ × List α)) (k k' : κ) (v : α) (h : k' ≠ k) :
    entriesAt (ddAppend d k v) k' = entriesAt d k' := by
  induction d with
  | nil => simp [ddAppend, entriesAt, lookupA, Ne.symm h]
  | cons hd rest ih =>
    obtain ⟨k0, vs⟩ := hd
    by_cases hk : k0 = k
    · subst hk
      simp [ddAppend, entriesAt, lookupA, Ne.symm h]
    · simp [ddAppend, entriesAt, lookupA, hk] at ih ⊢
      by_cases hk' : k0 = k'
      · simp [hk']
      · simp [hk', ih]

theorem mem_ddAppend {κ α : Type} [DecidableEq κ]
    (d : List (κ × List α)) (k : κ) (v : α) (p : κ × List α)
    (hp : p ∈ ddAppend d k v) : p.1 = k ∨ p ∈ d := by
  induction d with
  | nil =>
    simp [ddAppend] at hp
    left
    rw [hp]
  | cons hd rest ih =>
    obtain ⟨k0, vs⟩ := hd
    by_cases hk : k0 = k
    · subst hk
      simp [ddAppend] at hp
      rcases hp with h | h
      · left; rw [h]
      · right; exact List.mem_cons_of_mem _ h
    · simp [ddAppend, hk] at hp
      rcases hp with h | h
      · right; simp [h]
      · rcases ih h with h' | h'
        · left; exact h'
        · right; exact List.mem_cons_of_mem _ h'

theorem lookupA_setA_self {κ α : Type} [DecidableEq κ]
    (d : List (κ × α)) (k : κ) (v : α) : lookupA (setA d k v) k = some v := by
  induction d with
  | nil => simp [setA, lookupA]
  | cons hd rest ih =>
    obtain ⟨k0, v0⟩ := hd
    by_cases hk : k0 = k
    · subst hk
      simp [setA, lookupA]
    · simp [setA, lookupA, hk, ih]

theorem lookupA_setA_ne {κ α : Type} [DecidableEq κ]
    (d : List (κ × α)) (k k' : κ) (v : α) (h : k ≠ k') :
    lookupA (setA d k v) k' = lookupA d k' := by
  induction d with
  | nil => simp [setA, lookupA, h]
  | cons hd rest ih =>
    obtain ⟨k0, v0⟩ := hd
    by_cases hk : k0 = k
    · subst hk
      simp [setA, lookupA, h, ih]
    · simp [setA, lookupA, hk, ih]

/-! ### Data model (`database_graph.py`) -/

/-- One relationship record, the Python dict built in
`DatabaseGraph._discover_relationships` (keys `type`, `from_table`,
`from_column`, `to_table`, `to_column`, `confidence`, `cardinality`). -/
structure Relationship where
  rel_type : String
  from_table : String
  from_column : String
  to_table : String
  to_column : String
  confidence : ℚ
  cardinality : String
deriving DecidableEq

/-- One foreign-key row as returned by the schema catalog
(`db_manager.get_foreign_keys`). -/
structure FK where
  referred_table : Option String
  constrained_columns : List String
  referred_columns : List String
deriving DecidableEq

/-- The per-table schema information used by `_add_table_metadata`. -/
structure TableSchema where
  columns : List String
  primary_key : List String
  foreign_keys : List FK
deriving DecidableEq

/-- The metadata record `self.table_metadata[table_name]`. -/
structure TableMeta where
  name : String
  row_count : Nat
  column_count : Nat
  has_pk : Bool
  fk_count : Nat
deriving DecidableEq

/-- The schema catalog (`db_manager`), the external collaborator the graph
is built from: table list, foreign keys, best-effort row-count estimates
(already defaulted to 0 on failure) and table schemas. -/
structure Catalog where
  tables : List String
  foreignKeys : String → List FK
  rowCount : String → Nat
  schema : String → TableSchema

/-- The state of a `DatabaseGraph` instance: forward adjacency, reverse
adjacency (both `defaultdict(list)`), table metadata dict, the flat list of
discovered relationships, and the `initialized` flag. -/
structure DatabaseGraph where
  graph : List (String × List (String × Relationship))
  reverse_graph : List (String × List (String × Relationship))
  table_metadata : List (String × TableMeta)
  relationships : List Relationship
  initialized : Bool

def DatabaseGraph.empty : DatabaseGraph :=
  { graph := [], reverse_graph := [], table_metadata := [], relationships := [],
    initialized := false }

/-! ### Graph construction (`initialize`) -/

/-- The guards of `_discover_relationships`: Python skips a FK when
`referred_table` is falsy (missing or the empty string) or either column
list is empty. -/
def fkValid (fk : FK) : Bool :=
  (match fk.referred_table with
   | none => false
   | some rt => rt ≠ "") &&
  !fk.constrained_columns.isEmpty && !fk.referred_columns.isEmpty

def fkRef (fk : FK) : String := fk.referred_table.getD ""

/-- The forward relationship dict built for a valid FK of table `t`. -/
def mkRel (t : String) (fk : FK) : Relationship :=
  { rel_type := "foreign_key"
    from_table := t
    from_column := fk.constrained_columns.headD ""
    to_table := fkRef fk
    to_column := fk.referred_columns.headD ""
    confidence := 1
    cardinality := "many_to_one" }

/-- `relationship.copy()` with only `cardinality` overwritten. -/
def mirror (r : Relationship) : Relationship := { r with cardinality := "one_to_many" }

/-- The body of the `for fk in fks` loop of `_discover_relationships`. -/
def processFk (t : String) (g : DatabaseGraph) (fk : FK) : DatabaseGraph :=
  if fkValid fk then
    { g with
      graph := ddAppend g.graph t (fkRef fk, mkRel t fk)
      reverse_graph := ddAppend g.reverse_graph (fkRef fk) (t, mirror (mkRel t fk))
      relationships := g.relationships ++ [mkRel t fk] }
  else g

def discover_relationships (cat : Catalog) (g : DatabaseGraph) (t : String) :
    DatabaseGraph :=
  (cat.foreignKeys t).foldl (processFk t) g

/-- `_add_table_metadata`. -/
def mkMeta (cat : Catalog) (t : String) : TableMeta :=
  { name := t
    row_count := cat.rowCount t
    column_count := (cat.schema t).columns.length
    has_pk := !(cat.schema t).primary_key.isEmpty
    fk_count := (cat.schema t).foreign_keys.length }

def add_table_metadata (cat : Catalog) (g : DatabaseGraph) (t : String) :
    DatabaseGraph :=
  { g with table_metadata := setA g.table_metadata t (mkMeta cat t) }

/-- `DatabaseGraph.initialize`: a no-op when already initialized, otherwise
metadata for every table, then relationship discovery for every table, then
the flag is set. -/
def initGraph (g : DatabaseGraph) (cat : Catalog) : DatabaseGraph :=
  if g.initialized then g
  else
    let g1 := cat.tables.foldl (add_table_metadata cat) g
    let g2 := cat.tables.foldl (discover_relationships cat) g1
    { g2 with initialized := true }

/-! ### K-Hop traversal (`get_k_hop_neighbors`) -/

/-- The per-level result map `neighbors_by_level` (a `defaultdict(list)`
keyed by hop level). -/
abbrev LevelMap := List (Nat × List (String × Relationship))

/-- `self.table_metadata.get(x[0], {}).get("row_count", 0)`. -/
def rowCountOf (g : DatabaseGraph) (t : String) : Nat :=
  match lookupA g.table_metadata t with
  | some m => m.row_count
  | none => 0

/-- The two guarded adjacency reads that build `direct_neighbors`
(forward always, reverse only when `bidirectional`). -/
def rawCandidates (g : DatabaseGraph) (t : String) (bidirectional : Bool) :
    List (String × Relationship) :=
  entriesAt g.graph t ++ (if bidirectional then entriesAt g.reverse_graph t else [])

/-- The fan-out cap: when more candidates than `max_neighbors_per_level`,
keep the top ones after a stable sort descending by estimated row count
(Python `sorted(..., key=row_count, reverse=True)[:max]`). -/
def capList (g : DatabaseGraph) (maxN : Nat) (dn : List (String × Relationship)) :
    List (String × Relationship) :=
  if maxN < dn.length then
    (dn.mergeSort (fun x y => decide (rowCountOf g y.1 ≤ rowCountOf g x.1))).take maxN
  else dn

def cappedNeighbors (g : DatabaseGraph) (t : String) (bidirectional : Bool)
    (maxN : Nat) : List (String × Relationship) :=
  capList g maxN (rawCandidates g t bidirectional)

/-- The `for neighbor_table, rel_info in direct_neighbors` loop: record and
enqueue every not-yet-visited candidate, marking it visited. -/
def addNeighbors (lvl : Nat) :
    List (String × Relationship) → List String → LevelMap →
    List (String × Nat × Option Relationship) →
    List String × LevelMap × List (String × Nat × Option Relationship)
  | [], vis, acc, q => (vis, acc, q)
  | (nt, r) :: rest, vis, acc, q =>
    if nt ∈ vis then addNeighbors lvl rest vis acc q
    else
      addNeighbors lvl rest (vis ++ [nt]) (ddAppend acc lvl (nt, r))
        (q ++ [(nt, lvl, some r)])

/-- An upper bound on the number of iterations of either BFS `while` loop:
one pop per iteration, and at most `1 +` (number of adjacency pairs) entries
are ever pushed, because each push marks a previously unvisited table. -/
def graphFuel (g : DatabaseGraph) : Nat :=
  (g.graph.map (fun p => p.2.length)).sum +
    (g.reverse_graph.map (fun p => p.2.length)).sum + 1

/-- The BFS `while queue:` loop of `get_k_hop_neighbors`, threading the
graph state through the `defaultdict` accesses. -/
def khopLoop (bid : Bool) (maxN k : Nat) :
    Nat → List (String × Nat × Option Relationship) → List String → LevelMap →
    DatabaseGraph → LevelMap × DatabaseGraph
  | 0, _, _, acc, g => (acc, g)
  | _ + 1, [], _, acc, g => (acc, g)
  | fuel + 1, (t, lvl, _) :: rest, vis, acc, g =>
    if k ≤ lvl then khopLoop bid maxN k fuel rest vis acc g
    else
      let p1 := guardedIndex g.graph t
      let p2 := if bid then guardedIndex g.reverse_graph t else ([], g.reverse_graph)
      let g1 : DatabaseGraph := { g with graph := p1.2, reverse_graph := p2.2 }
      let capped := capList g1 maxN (p1.1 ++ p2.1)
      let r := addNeighbors (lvl + 1) capped vis acc rest
      khopLoop bid maxN k fuel r.2.2 r.1 r.2.1 g1

/-- `get_k_hop_neighbors`, with the state it leaves behind (the Python
method mutates nothing; the pair makes that provable). -/
def get_k_hop_neighborsS (g : DatabaseGraph) (start_table : String) (k : Nat)
    (bidirectional : Bool) (maxN : Nat) : LevelMap × DatabaseGraph :=
  if g.initialized = false then ([], g)
  else if (lookupA g.table_metadata start_table).isNone then ([], g)
  else khopLoop bidirectional maxN k (graphFuel g) [(start_table, 0, none)]
    [start_table] [] g

def get_k_hop_neighbors (g : DatabaseGraph) (start_table : String) (k : Nat)
    (bidirectional : Bool) (maxN : Nat) : LevelMap :=
  (get_k_hop_neighborsS g start_table k bidirectional maxN).1

/-! ### Shortest path (`get_path_between_tables`) -/

/-- Push every unvisited neighbor with its extended path
(`new_path = path + [rel_info]`). -/
def pushPaths (path : List Relationship) :
    List (String × Relationship) → List String → List (String × List Relationship) →
    List String × List (String × List Relationship)
  | [], vis, q => (vis, q)
  | (nt, r) :: rest, vis, q =>
    if nt ∈ vis then pushPaths path rest vis q
    else pushPaths path rest (vis ++ [nt]) (q ++ [(nt, path ++ [r])])

/-- The BFS `while queue:` loop of `get_path_between_tables`.  Note the
depth cut (`len(path) >= max_depth: continue`) is tested BEFORE the
target test, exactly as in the source. -/
def pathLoop (tb : String) (maxd : Nat) :
    Nat → List (String × List Relationship) → List String → DatabaseGraph →
    Option (List Relationship) × DatabaseGraph
  | 0, _, _, g => (none, g)
  | _ + 1, [], _, g => (none, g)
  | fuel + 1, (t, path) :: rest, vis, g =>
    if maxd ≤ path.length then pathLoop tb maxd fuel rest vis g
    else if t = tb then (some path, g)
    else
      let p1 := guardedIndex g.graph t
      let p2 := guardedIndex g.reverse_graph t
      let g1 : DatabaseGraph := { g with graph := p1.2, reverse_graph := p2.2 }
      let r := pushPaths path (p1.1 ++ p2.1) vis rest
      pathLoop tb maxd fuel r.2 r.1 g1

def get_path_between_tablesS (g : DatabaseGraph) (table_a table_b : String)
    (maxd : Nat) : Option (List Relationship) × DatabaseGraph :=
  if g.initialized = false then (none, g)
  else if (lookupA g.table_metadata table_a).isNone ||
      (lookupA g.table_metadata table_b).isNone then (none, g)
  else pathLoop table_b maxd (graphFuel g) [(table_a, [])] [table_a] g

def get_path_between_tables (g : DatabaseGraph) (table_a table_b : String)
    (maxd : Nat) : Option (List Relationship) :=
  (get_path_between_tablesS g table_a table_b maxd).1

/-! ### Accessors -/

def get_all_relationshipsS (g : DatabaseGraph) : List Relationship × DatabaseGraph :=
  (g.relationships, g)

def get_all_relationships (g : DatabaseGraph) : List Relationship :=
  (get_all_relationshipsS g).1

def get_table_infoS (g : DatabaseGraph) (t : String) :
    Option TableMeta × DatabaseGraph :=
  (lookupA g.table_metadata t, g)

/-- `get_connected_tables`: the set union of forward and reverse direct
neighbors (a Python `set`, embedded as a deduplicated list). -/
def get_connected_tablesS (g : DatabaseGraph) (t : String) :
    List String × DatabaseGraph :=
  let p1 := guardedIndex g.graph t
  let p2 := guardedIndex g.reverse_graph t
  let g1 : DatabaseGraph := { g with graph := p1.2, reverse_graph := p2.2 }
  ((p1.1.map Prod.fst ++ p2.1.map Prod.fst).dedup, g1)

/-- The record returned by `get_graph_stats`. -/
structure GraphStats where
  tables_count : Nat
  relationships_count : Nat
  avg_connections_per_table : ℚ
  most_connected_tables : List (String × Nat)
  initialized : Bool
deriving DecidableEq

def statsStep (acc : List (String × Nat) × DatabaseGraph) (p : String × TableMeta) :
    List (String × Nat) × DatabaseGraph :=
  let r := get_connected_tablesS acc.2 p.1
  (acc.1 ++ [(p.1, r.1.length)], r.2)

def get_graph_statsS (g : DatabaseGraph) : GraphStats × DatabaseGraph :=
  let folded := g.table_metadata.foldl statsStep ([], g)
  let sortedC := folded.1.mergeSort (fun x y => decide (y.2 ≤ x.2))
  ({ tables_count := g.table_metadata.length
     relationships_count := g.relationships.length
     avg_connections_per_table :=
       if g.table_metadata.length = 0 then 0
       else (g.relationships.length : ℚ) / (g.table_metadata.length : ℚ)
     most_connected_tables := sortedC.take 5
     initialized := g.initialized }, folded.2)

/-! ### Ranking entry point (`DatabaseTools.explore_k_hop_neighborhood`) -/

/-- Python substring test `a in b`. -/
def substrOf (a b : String) : Bool := decide (a.toList <:+: b.toList)

/-- One flattened neighbor record
`{"table": ..., "level": ..., "relationship": ..., "relevance_score": ...}`. -/
structure Neighbor where
  table : String
  level : Nat
  relationship : Relationship
  relevance_score : ℚ
deriving DecidableEq

/-- The score contribution of one query term (inside the
`for term in query_terms` loop). -/
def termScore (table_lower : String) (term : String) : ℚ :=
  if 3 < term.length then
    if substrOf term table_lower then 50
    else if substrOf table_lower term then 30
    else 0
  else 0

/-- Python `str.lower()` (character-wise lowercasing). -/
def pyLower (s : String) : String := String.mk (s.data.map Char.toLower)

/-- Helper for `pySplit`: walk the characters, accumulating the current
token (reversed); whitespace closes the token, empty tokens are dropped. -/
def splitWsAux : List Char → List Char → List String
  | [], cur => if cur.isEmpty then [] else [String.mk cur.reverse]
  | c :: rest, cur =>
    if c.isWhitespace then
      if cur.isEmpty then splitWsAux rest []
      else String.mk cur.reverse :: splitWsAux rest []
    else splitWsAux rest (c :: cur)

/-- Python `str.split()` with no argument: split on runs of (ASCII)
whitespace, producing no empty tokens. -/
def pySplit (s : String) : List String := splitWsAux s.data []

/-- `set(user_query.lower().split())`: whitespace tokens, lowercased,
deduplicated (a Python set holds each token once). -/
def queryTerms (user_query : String) : List String :=
  (pySplit (pyLower user_query)).dedup

/-- The scoring pass applied to one neighbor: term scores, then the depth
penalty, then the cardinality bonus, then the confidence bonus. -/
def scoreOf (terms : List String) (nb : Neighbor) : ℚ :=
  let table_lower := pyLower nb.table
  let base := terms.foldl (fun s term => s + termScore table_lower term) 0
  let s1 := base - (nb.level : ℚ) * 10
  let s2 := if nb.relationship.cardinality = "many_to_one" then s1 + 15 else s1
  s2 + nb.relationship.confidence * 10

/-- The result dict of `explore_k_hop_neighborhood`. -/
structure ExploreResult where
  start_table : String
  k : Nat
  total_found : Nat
  returned : Nat
  neighbors : List Neighbor
  neighbors_by_level : LevelMap
deriving DecidableEq

/-- `explore_k_hop_neighborhood`: k-hop traversal (bidirectional, default
fan-out cap 10), flatten, score, stable sort descending by score, truncate
to `max_tables`. -/
def explore_k_hop_neighborhood (g : DatabaseGraph) (start_table user_query : String)
    (k max_tables : Nat) : ExploreResult :=
  let nbl := get_k_hop_neighbors g start_table k true 10
  let all0 := nbl.flatMap (fun p =>
    p.2.map (fun tr => Neighbor.mk tr.1 p.1 tr.2 0))
  let terms := queryTerms user_query
  let scored := all0.map (fun nb => { nb with relevance_score := scoreOf terms nb })
  let sortedN := scored.mergeSort
    (fun x y => decide (y.relevance_score ≤ x.relevance_score))
  let top := sortedN.take max_tables
  { start_table := start_table
    k := k
    total_found := sortedN.length
    returned := top.length
    neighbors := top
    neighbors_by_level := nbl }

/-! ### The example graph of the spec's test scenarios

Four tables; declared FKs: `orders.client_id → clients.id`,
`orders_lines.order_id → orders.id`, `orders_lines.product_id → products.id`. -/

def fkOC : FK :=
  { referred_table := some "clients", constrained_columns := ["client_id"],
    referred_columns := ["id"] }

def fkOLO : FK :=
  { referred_table := some "orders", constrained_columns := ["order_id"],
    referred_columns := ["id"] }

def fkOLP : FK :=
  { referred_table := some "products", constrained_columns := ["product_id"],
    referred_columns := ["id"] }

def exCatalog : Catalog :=
  { tables := ["clients", "orders", "orders_lines", "products"]
    foreignKeys := fun t =>
      if t = "orders" then [fkOC]
      else if t = "orders_lines" then [fkOLO, fkOLP]
      else []
    rowCount := fun t =>
      if t = "clients" then 100
      else if t = "orders" then 500
      else if t = "orders_lines" then 2000
      else if t = "products" then 50
      else 0
    schema := fun _ =>
      { columns := ["id"], primary_key := ["id"], foreign_keys := [] } }

def exGraph : DatabaseGraph := initGraph DatabaseGraph.empty exCatalog

/-! ### Step lemmas: the threaded loops leave the graph state unchanged -/

theorem khopLoop_step (bid : Bool) (maxN k fuel : Nat) (t : String) (lvl : Nat)
    (orel : Option Relationship) (rest : List (String × Nat × Option Relationship))
    (vis : List String) (acc : LevelMap) (g : DatabaseGraph) (h : lvl < k) :
    khopLoop bid maxN k (fuel + 1) ((t, lvl, orel) :: rest) vis acc g =
      khopLoop bid maxN k fuel
        (addNeighbors (lvl + 1) (cappedNeighbors g t bid maxN) vis acc rest).2.2
        (addNeighbors (lvl + 1) (cappedNeighbors g t bid maxN) vis acc rest).1
        (addNeighbors (lvl + 1) (cappedNeighbors g t bid maxN) vis acc rest).2.1 g := by
  rw [khopLoop, if_neg (Nat.not_le.mpr h)]
  cases bid <;>
    simp only [guardedIndex_eq, cappedNeighbors, rawCandidates, if_true, if_false,
      Bool.false_eq_true]

theorem khopLoop_skip (bid : Bool) (maxN k fuel : Nat) (t : String) (lvl : Nat)
    (orel : Option Relationship) (rest : List (String × Nat × Option Relationship))
    (vis : List String) (acc : LevelMap) (g : DatabaseGraph) (h : k ≤ lvl) :
    khopLoop bid maxN k (fuel + 1) ((t, lvl, orel) :: rest) vis acc g =
      khopLoop bid maxN k fuel rest vis acc g := by
  rw [khopLoop, if_pos h]

theorem khopLoop_state (bid : Bool) (maxN k : Nat) :
    ∀ (fuel : Nat) (q : List (String × Nat × Option Relationship))
      (vis : List String) (acc : LevelMap) (g : DatabaseGraph),
      (khopLoop bid maxN k fuel q vis acc g).2 = g
  | 0, _, _, _, _ => rfl
  | _ + 1, [], _, _, _ => rfl
  | fuel + 1, (t, lvl, orel) :: rest, vis, acc, g => by
    by_cases h : k ≤ lvl
    · rw [khopLoop_skip bid maxN k fuel t lvl orel rest vis acc g h]
      exact khopLoop_state bid maxN k fuel rest vis acc g
    · rw [khopLoop_step bid maxN k fuel t lvl orel rest vis acc g (Nat.not_le.mp h)]
      exact khopLoop_state bid maxN k fuel _ _ _ g

theorem pathLoop_step (tb : String) (maxd fuel : Nat) (t : String)
    (path : List Relationship) (rest : List (String × List Relationship))
    (vis : List String) (g : DatabaseGraph)
    (h1 : path.length < maxd) (h2 : t ≠ tb) :
    pathLoop tb maxd (fuel + 1) ((t, path) :: rest) vis g =
      pathLoop tb maxd fuel
        (pushPaths path (rawCandidates g t true) vis rest).2
        (pushPaths path (rawCandidates g t true) vis rest).1 g := by
  rw [pathLoop, if_neg (Nat.not_le.mpr h1), if_neg h2]
  simp only [guardedIndex_eq, rawCandidates, if_true]

theorem pathLoop_skip (tb : String) (maxd fuel : Nat) (t : String)
    (path : List Relationship) (rest : List (String × List Relationship))
    (vis : List String) (g : DatabaseGraph) (h : maxd ≤ path.length) :
    pathLoop tb maxd (fuel + 1) ((t, path) :: rest) vis g =
      pathLoop tb maxd fuel rest vis g := by
  rw [pathLoop, if_pos h]

theorem pathLoop_found (tb : String) (maxd fuel : Nat)
    (path : List Relationship) (rest : List (String × List Relationship))
    (vis : List String) (g : DatabaseGraph) (h : path.length < maxd) :
    pathLoop tb maxd (fuel + 1) ((tb, path) :: rest) vis g = (some path, g) := by
  rw [pathLoop, if_neg (Nat.not_le.mpr h), if_pos rfl]

theorem pathLoop_state (tb : String) (maxd : Nat) :
    ∀ (fuel : Nat) (q : List (String × List Relationship))
      (vis : List String) (g : DatabaseGraph),
      (pathLoop tb maxd fuel q vis g).2 = g
  | 0, _, _, _ => rfl
  | _ + 1, [], _, _ => rfl
  | fuel + 1, (t, path) :: rest, vis, g => by
    by_cases h1 : maxd ≤ path.length
    · rw [pathLoop_skip tb maxd fuel t path rest vis g h1]
      exact pathLoop_state tb maxd fuel rest vis g
    · by_cases h2 : t = tb
      · subst h2
        rw [pathLoop_found t maxd fuel path rest vis g (Nat.not_le.mp h1)]
      · rw [pathLoop_step tb maxd fuel t path rest vis g (Nat.not_le.mp h1) h2]
        exact pathLoop_state tb maxd fuel _ _ g

theorem get_k_hop_neighborsS_frame (g : DatabaseGraph) (s : String) (k : Nat)
    (bid : Bool) (maxN : Nat) : (get_k_hop_neighborsS g s k bid maxN).2 = g := by
  unfold get_k_hop_neighborsS
  by_cases h1 : g.initialized = false
  · simp [h1]
  · by_cases h2 : (lookupA g.table_metadata s).isNone
    · simp [h1, h2]
    · simp [h1, h2, khopLoop_state]

theorem get_path_between_tablesS_frame (g : DatabaseGraph) (a b : String)
    (maxd : Nat) : (get_path_between_tablesS g a b maxd).2 = g := by
  unfold get_path_between_tablesS
  by_cases h1 : g.initialized = false
  · simp [h1]
  · by_cases h2 : (lookupA g.table_metadata a).isNone ||
      (lookupA g.table_metadata b).isNone
    · simp [h1, h2]
    · simp [h1, h2, pathLoop_state]

theorem get_connected_tablesS_frame (g : DatabaseGraph) (t : String) :
    (get_connected_tablesS g t).2 = g := by
  simp [get_connected_tablesS, guardedIndex_eq]

theorem statsFold_state :
    ∀ (l : List (String × TableMeta)) (s : List (String × Nat) × DatabaseGraph),
      (l.foldl statsStep s).2 = s.2
  | [], _ => rfl
  | p :: rest, s => by
    rw [List.foldl_cons, statsFold_state rest _]
    exact get_connected_tablesS_frame s.2 p.1

theorem get_graph_statsS_frame (g : DatabaseGraph) : (get_graph_statsS g).2 = g :=
  statsFold_state g.table_metadata ([], g)

/-! ### Characterization of the built graph -/

/-- The FKs of `t` that survive the guards of `_discover_relationships`. -/
def validFks (cat : Catalog) (t : String) : List FK :=
  (cat.foreignKeys t).filter fkValid

/-- The forward adjacency list the build produces for table `t`. -/
def fwdOf (cat : Catalog) (t : String) : List (String × Relationship) :=
  (validFks cat t).map (fun fk => (fkRef fk, mkRel t fk))

/-- The reverse-adjacency entries contributed by table `t` under key `B`. -/
def revContrib (cat : Catalog) (t B : String) : List (String × Relationship) :=
  ((validFks cat t).filter (fun fk => decide (fkRef fk = B))).map
    (fun fk => (t, mirror (mkRel t fk)))

/-- All forward relationships, in discovery order. -/
def allRels (cat : Catalog) : List Relationship :=
  cat.tables.flatMap (fun t => (validFks cat t).map (mkRel t))

theorem fkFold_relationships (t : String) :
    ∀ (fks : List FK) (g : DatabaseGraph),
      (fks.foldl (processFk t) g).relationships =
        g.relationships ++ (fks.filter fkValid).map (mkRel t)
  | [], g => by simp
  | fk :: rest, g => by
    rw [List.foldl_cons, fkFold_relationships t rest]
    by_cases h : fkValid fk
    · simp [processFk, h]
    · simp [processFk, h]

theorem fkFold_graph_self (t : String) :
    ∀ (fks : List FK) (g : DatabaseGraph),
      entriesAt (fks.foldl (processFk t) g).graph t =
        entriesAt g.graph t ++
          (fks.filter fkValid).map (fun fk => (fkRef fk, mkRel t fk))
  | [], g => by simp
  | fk :: rest, g => by
    rw [List.foldl_cons, fkFold_graph_self t rest]
    by_cases h : fkValid fk
    · simp [processFk, h, entriesAt_ddAppend_self]
    · simp [processFk, h]

theorem fkFold_graph_ne (t A : String) (hA : A ≠ t) :
    ∀ (fks : List FK) (g : DatabaseGraph),
      entriesAt (fks.foldl (processFk t) g).graph A = entriesAt g.graph A
  | [], g => rfl
  | fk :: rest, g => by
    rw [List.foldl_cons, fkFold_graph_ne t A hA rest]
    by_cases h : fkValid fk
    · simp [processFk, h, entriesAt_ddAppend_ne _ _ _ _ hA]
    · simp [processFk, h]

theorem fkFold_reverse (t B : String) :
    ∀ (fks : List FK) (g : DatabaseGraph),
      entriesAt (fks.foldl (processFk t) g).reverse_graph B =
        entriesAt g.reverse_graph B ++
          ((fks.filter fkValid).filter (fun fk => decide (fkRef fk = B))).map
            (fun fk => (t, mirror (mkRel t fk)))
  | [], g => by simp
  | fk :: rest, g => by
    rw [List.foldl_cons, fkFold_reverse t B rest]
    by_cases h : fkValid fk
    · by_cases hB : fkRef fk = B
      · subst hB
        simp [processFk, h, entriesAt_ddAppend_self]
      · simp [processFk, h, hB, entriesAt_ddAppend_ne _ _ _ _ (Ne.symm hB)]
    · simp [processFk, h]

theorem fkFold_metadata (t : String) :
    ∀ (fks : List FK) (g : DatabaseGraph),
      (fks.foldl (processFk t) g).table_metadata = g.table_metadata
  | [], g => rfl
  | fk :: rest, g => by
    rw [List.foldl_cons, fkFold_metadata t rest]
    by_cases h : fkValid fk <;> simp [processFk, h]

theorem discFold_relationships (cat : Catalog) :
    ∀ (ts : List String) (g : DatabaseGraph),
      (ts.foldl (discover_relationships cat) g).relationships =
        g.relationships ++ ts.flatMap (fun t => (validFks cat t).map (mkRel t))
  | [], g => by simp
  | t :: rest, g => by
    rw [List.foldl_cons, discFold_relationships cat rest]
    simp [discover_relationships, fkFold_relationships, validFks]

theorem discFold_graph (cat : Catalog) (A : String) :
    ∀ (ts : List String) (g : DatabaseGraph),
      entriesAt (ts.foldl (discover_relationships cat) g).graph A =
        entriesAt g.graph A ++
          ts.flatMap (fun t => if t = A then fwdOf cat t else [])
  | [], g => by simp
  | t :: rest, g => by
    rw [List.foldl_cons, discFold_graph cat A rest]
    by_cases h : t = A
    · subst h
      simp [discover_relationships, fkFold_graph_self, fwdOf, validFks]
    · simp [discover_relationships, fkFold_graph_ne t A (Ne.symm h), h]

theorem discFold_reverse (cat : Catalog) (B : String) :
    ∀ (ts : List String) (g : DatabaseGraph),
      entriesAt (ts.foldl (discover_relationships cat) g).reverse_graph B =
        entriesAt g.reverse_graph B ++ ts.flatMap (fun t => revContrib cat t B)
  | [], g => by simp
  | t :: rest, g => by
    rw [List.foldl_cons, discFold_reverse cat B rest]
    simp [discover_relationships, fkFold_reverse, revContrib, validFks]

theorem discFold_metadata (cat : Catalog) :
    ∀ (ts : List String) (g : DatabaseGraph),
      (ts.foldl (discover_relationships cat) g).table_metadata = g.table_metadata
  | [], g => rfl
  | t :: rest, g => by
    rw [List.foldl_cons, discFold_metadata cat rest]
    simp [discover_relationships, fkFold_metadata]

theorem metaFold_lookup (cat : Catalog) (A : String) :
    ∀ (ts : List String) (g : DatabaseGraph),
      lookupA (ts.foldl (add_table_metadata cat) g).table_metadata A =
        if A ∈ ts then some (mkMeta cat A) else lookupA g.table_metadata A
  | [], g => by simp
  | t :: rest, g => by
    rw [List.foldl_cons, metaFold_lookup cat A rest]
    by_cases hr : A ∈ rest
    · simp [hr]
    · by_cases ht : A = t
      · subst ht
        simp [hr, add_table_metadata, lookupA_setA_self]
      · simp [hr, ht, add_table_metadata, lookupA_setA_ne _ _ _ _ (Ne.symm ht)]

theorem metaFold_graph (cat : Catalog) :
    ∀ (ts : List String) (g : DatabaseGraph),
      (ts.foldl (add_table_metadata cat) g).graph = g.graph ∧
        (ts.foldl (add_table_metadata cat) g).reverse_graph = g.reverse_graph ∧
        (ts.foldl (add_table_metadata cat) g).relationships = g.relationships
  | [], g => ⟨rfl, rfl, rfl⟩
  | t :: rest, g => by
    rw [List.foldl_cons]
    exact metaFold_graph cat rest _

theorem initGraph_relationships (cat : Catalog) :
    (initGraph DatabaseGraph.empty cat).relationships = allRels cat := by
  simp only [initGraph, DatabaseGraph.empty, if_false, Bool.false_eq_true]
  rw [discFold_relationships]
  rw [(metaFold_graph cat cat.tables _).2.2]
  rfl

theorem initGraph_reverse (cat : Catalog) (B : String) :
    entriesAt (initGraph DatabaseGraph.empty cat).reverse_graph B =
      cat.tables.flatMap (fun t => revContrib cat t B) := by
  simp only [initGraph, DatabaseGraph.empty, if_false, Bool.false_eq_true]
  rw [discFold_reverse]
  rw [(metaFold_graph cat cat.tables _).2.1]
  rfl

theorem initGraph_graph (cat : Catalog) (A : String) :
    entriesAt (initGraph DatabaseGraph.empty cat).graph A =
      cat.tables.flatMap (fun t => if t = A then fwdOf cat t else []) := by
  simp only [initGraph, DatabaseGraph.empty, if_false, Bool.false_eq_true]
  rw [discFold_graph]
  rw [(metaFold_graph cat cat.tables _).1]
  rfl

theorem initGraph_metadata (cat : Catalog) (A : String) :
    lookupA (initGraph DatabaseGraph.empty cat).table_metadata A =
      if A ∈ cat.tables then some (mkMeta cat A) else none := by
  simp only [initGraph, DatabaseGraph.empty, if_false, Bool.false_eq_true]
  rw [discFold_metadata, metaFold_lookup]
  rfl

theorem flatMap_if_nil {α : Type} (f : String → List α) (A : String) :
    ∀ (ys : List String), (∀ x ∈ ys, x ≠ A) →
      (ys.flatMap fun t => if t = A then f t else []) = []
  | [], _ => rfl
  | y :: ys, hz => by
    simp only [List.flatMap_cons, if_neg (hz y (List.mem_cons_self y ys)),
      List.nil_append]
    exact flatMap_if_nil f A ys (fun x hx => hz x (List.mem_cons_of_mem y hx))

theorem flatMap_if_single {α : Type} (f : String → List α) (A : String) :
    ∀ (ts : List String), ts.Nodup → A ∈ ts →
      (ts.flatMap fun t => if t = A then f t else []) = f A
  | [], _, hA => absurd hA (List.not_mem_nil A)
  | t :: rest, hnd, hA => by
    rcases List.mem_cons.mp hA with h | h
    · subst h
      have hrest : ∀ x ∈ rest, x ≠ A := fun x hx he => by
        exact (List.nodup_cons.mp hnd).1 (he ▸ hx)
      simp [List.flatMap_cons, flatMap_if_nil f A rest hrest]
    · have hne : t ≠ A := fun he => (List.nodup_cons.mp hnd).1 (he ▸ h)
      simp only [List.flatMap_cons, if_neg hne, List.nil_append]
      exact flatMap_if_single f A rest (List.nodup_cons.mp hnd).2 h

theorem sum_map_single (f : String → Nat) (A : String) :
    ∀ (ts : List String), ts.Nodup → A ∈ ts → (∀ t ∈ ts, t ≠ A → f t = 0) →
      (ts.map f).sum = f A
  | [], _, hA, _ => absurd hA (List.not_mem_nil A)
  | t :: rest, hnd, hA, hz => by
    rcases List.mem_cons.mp hA with h | h
    · subst h
      have : (rest.map f).sum = 0 := by
        apply List.sum_eq_zero
        intro x hx
        rcases List.mem_map.mp hx with ⟨y, hy, he⟩
        rw [← he]
        exact hz y (List.mem_cons_of_mem A hy)
          (fun hc => (List.nodup_cons.mp hnd).1 (hc ▸ hy))
      simp [this]
    · have hne : t ≠ A := fun he => (List.nodup_cons.mp hnd).1 (he ▸ h)
      simp only [List.map_cons, List.sum_cons, hz t (List.mem_cons_self t rest) hne,
        Nat.zero_add]
      exact sum_map_single f A rest (List.nodup_cons.mp hnd).2 h
        (fun x hx => hz x (List.mem_cons_of_mem t hx))

theorem sublist_flatMap_of_mem {α β : Type} (f : α → List β) :
    ∀ (ts : List α) (t : α), t ∈ ts → (f t).Sublist (ts.flatMap f)
  | [], t, ht => absurd ht (List.not_mem_nil t)
  | x :: rest, t, ht => by
    rcases List.mem_cons.mp ht with h | h
    · subst h
      simp only [List.flatMap_cons]
      exact List.sublist_append_left _ _
    · simp only [List.flatMap_cons]
      exact (sublist_flatMap_of_mem f rest t h).trans (List.sublist_append_right _ _)

/-- `mkRel` records the referred table in `to_table`, so equal forward
records refer to the same parent table. -/
theorem mkRel_eq_ref {t : String} {fk fk' : FK}
    (h : mkRel t fk' = mkRel t fk) : fkRef fk' = fkRef fk := by
  have := congrArg Relationship.to_table h
  simpa [mkRel] using this

theorem mirror_mkRel_inj {t : String} {fk fk' : FK} :
    mirror (mkRel t fk') = mirror (mkRel t fk) ↔ mkRel t fk' = mkRel t fk := by
  constructor
  · intro h
    simp [mirror, mkRel, Relationship.mk.injEq] at h ⊢
    exact h
  · intro h
    rw [h]

theorem count_flatMap_eq {β : Type} [BEq β] (f : String → List β) (a : β) :
    ∀ (ts : List String),
      (ts.flatMap f).count a = (ts.map fun t => (f t).count a).sum
  | [] => rfl
  | t :: rest => by
    simp only [List.flatMap_cons, List.count_append, List.map_cons, List.sum_cons,
      count_flatMap_eq f a rest]

theorem count_pair_eq_count_rel (A : String) (fk : FK) :
    ∀ (l : List FK),
      ((l.map fun fk' => (fkRef fk', mkRel A fk')).count (fkRef fk, mkRel A fk)) =
        ((l.map (mkRel A)).count (mkRel A fk))
  | [] => rfl
  | fk' :: rest => by
    have hiff : ((fkRef fk', mkRel A fk') = (fkRef fk, mkRel A fk)) ↔
        (mkRel A fk' = mkRel A fk) := by
      constructor
      · intro h
        exact (Prod.mk.injEq _ _ _ _ ▸ h).2
      · intro h
        rw [Prod.mk.injEq]
        exact ⟨mkRel_eq_ref h, h⟩
    simp only [List.map_cons, List.count_cons, beq_iff_eq, hiff,
      count_pair_eq_count_rel A fk rest]

theorem count_mirror_pair (A : String) (fk : FK) :
    ∀ (l : List FK),
      ((l.map fun fk' => (A, mirror (mkRel A fk'))).count (A, mirror (mkRel A fk))) =
        ((l.map (mkRel A)).count (mkRel A fk))
  | [] => rfl
  | fk' :: rest => by
    have hiff : ((A, mirror (mkRel A fk')) = (A, mirror (mkRel A fk))) ↔
        (mkRel A fk' = mkRel A fk) := by
      constructor
      · intro h
        exact mirror_mkRel_inj.mp (Prod.mk.injEq _ _ _ _ ▸ h).2
      · intro h
        rw [Prod.mk.injEq]
        exact ⟨rfl, mirror_mkRel_inj.mpr h⟩
    simp only [List.map_cons, List.count_cons, beq_iff_eq, hiff,
      count_mirror_pair A fk rest]

/-- The forward relationships of one table form a `Nodup` list whenever the
whole discovered edge list does. -/
theorem relsOfTable_nodup (cat : Catalog) (A : String) (hA : A ∈ cat.tables)
    (hnd : (allRels cat).Nodup) : ((validFks cat A).map (mkRel A)).Nodup :=
  List.Nodup.sublist
    (sublist_flatMap_of_mem (fun t => (validFks cat t).map (mkRel t)) cat.tables A hA)
    hnd

theorem count_revContrib_ne (cat : Catalog) (t B A : String) (r : Relationship)
    (hne : t ≠ A) : (revContrib cat t B).count (A, r) = 0 := by
  rw [List.count_eq_zero]
  intro hmem
  rcases List.mem_map.mp hmem with ⟨fk', _, he⟩
  exact hne (congrArg Prod.fst he)

theorem graph_count_one (cat : Catalog) (A : String) (fk : FK)
    (hnd : cat.tables.Nodup) (hrels : (allRels cat).Nodup)
    (hA : A ∈ cat.tables) (hfk : fk ∈ validFks cat A) :
    (entriesAt (initGraph DatabaseGraph.empty cat).graph A).count
      (fkRef fk, mkRel A fk) = 1 := by
  rw [initGraph_graph, flatMap_if_single (fwdOf cat) A cat.tables hnd hA]
  unfold fwdOf
  rw [count_pair_eq_count_rel]
  exact List.count_eq_one_of_mem (relsOfTable_nodup cat A hA hrels)
    (List.mem_map_of_mem _ hfk)

theorem reverse_count_one (cat : Catalog) (A : String) (fk : FK)
    (hnd : cat.tables.Nodup) (hrels : (allRels cat).Nodup)
    (hA : A ∈ cat.tables) (hfk : fk ∈ validFks cat A) :
    (entriesAt (initGraph DatabaseGraph.empty cat).reverse_graph (fkRef fk)).count
      (A, mirror (mkRel A fk)) = 1 := by
  rw [initGraph_reverse, count_flatMap_eq,
    sum_map_single _ A cat.tables hnd hA
      (fun t _ hne => count_revContrib_ne cat t (fkRef fk) A _ hne)]
  unfold revContrib
  rw [count_mirror_pair]
  apply List.count_eq_one_of_mem
  · exact List.Nodup.sublist (List.Sublist.map _ (List.filter_sublist _))
      (relsOfTable_nodup cat A hA hrels)
  · exact List.mem_map_of_mem _ (List.mem_filter.mpr ⟨hfk, by simp⟩)

theorem rels_count_one (cat : Catalog) (A : String) (fk : FK)
    (hrels : (allRels cat).Nodup) (hA : A ∈ cat.tables)
    (hfk : fk ∈ validFks cat A) :
    (allRels cat).count (mkRel A fk) = 1 :=
  List.count_eq_one_of_mem hrels
    (List.mem_flatMap.mpr ⟨A, hA, List.mem_map_of_mem _ hfk⟩)

theorem mirror_mem_reverse (cat : Catalog) (A : String) (fk : FK)
    (hA : A ∈ cat.tables) (hfk : fk ∈ validFks cat A) :
    (A, mirror (mkRel A fk)) ∈
      entriesAt (initGraph DatabaseGraph.empty cat).reverse_graph (fkRef fk) := by
  rw [initGraph_reverse]
  exact List.mem_flatMap.mpr
    ⟨A, hA, List.mem_map_of_mem _ (List.mem_filter.mpr ⟨hfk, by simp⟩)⟩

theorem fwdRel_mem_relationships (cat : Catalog) (A : String) (fk : FK)
    (hA : A ∈ cat.tables) (hfk : fk ∈ validFks cat A) :
    mkRel A fk ∈ (initGraph DatabaseGraph.empty cat).relationships := by
  rw [initGraph_relationships]
  exact List.mem_flatMap.mpr ⟨A, hA, List.mem_map_of_mem _ hfk⟩

/-! ### K-Hop invariants -/

/-- All table names recorded across all level buckets. -/
def flattenTables (acc : LevelMap) : List String :=
  acc.flatMap (fun p => p.2.map Prod.fst)

theorem flattenTables_ddAppend (lvl : Nat) (nt : String) (r : Relationship) :
    ∀ (acc : LevelMap),
      (flattenTables (ddAppend acc lvl (nt, r))).Perm (nt :: flattenTables acc)
  | [] => by simp [ddAppend, flattenTables]
  | (k0, vs) :: rest => by
    by_cases hk : k0 = lvl
    · subst hk
      rw [show ddAppend ((k0, vs) :: rest) k0 (nt, r) = (k0, vs ++ [(nt, r)]) :: rest
        from by simp [ddAppend]]
      simp only [flattenTables, List.flatMap_cons, List.map_append, List.map_cons,
        List.map_nil, List.append_assoc, List.singleton_append]
      exact List.perm_middle
    · simp only [ddAppend, if_neg hk, flattenTables, List.flatMap_cons]
      have ih := flattenTables_ddAppend lvl nt r rest
      refine List.Perm.trans (List.Perm.append_left (vs.map Prod.fst) ?_)
        List.perm_middle
      simpa [flattenTables] using ih

theorem addNeighbors_inv (lvl : Nat) :
    ∀ (cand : List (String × Relationship)) (vis : List String) (acc : LevelMap)
      (q : List (String × Nat × Option Relationship)),
      (flattenTables acc).Nodup → (∀ x ∈ flattenTables acc, x ∈ vis) →
      (flattenTables (addNeighbors lvl cand vis acc q).2.1).Nodup ∧
        (∀ x ∈ flattenTables (addNeighbors lvl cand vis acc q).2.1,
          x ∈ (addNeighbors lvl cand vis acc q).1)
  | [], vis, acc, q, hnd, hsub => ⟨hnd, hsub⟩
  | (nt, r) :: rest, vis, acc, q, hnd, hsub => by
    by_cases hv : nt ∈ vis
    · rw [addNeighbors, if_pos hv]
      exact addNeighbors_inv lvl rest vis acc q hnd hsub
    · rw [addNeighbors, if_neg hv]
      have hperm := flattenTables_ddAppend lvl nt r acc
      have hnd' : (flattenTables (ddAppend acc lvl (nt, r))).Nodup := by
        apply (List.Perm.nodup_iff hperm).mpr
        exact List.nodup_cons.mpr ⟨fun hmem => hv (hsub nt hmem), hnd⟩
      have hsub' : ∀ x ∈ flattenTables (ddAppend acc lvl (nt, r)), x ∈ vis ++ [nt] := by
        intro x hx
        rcases List.mem_cons.mp (hperm.mem_iff.mp hx) with h | h
        · subst h
          simp
        · exact List.mem_append_left _ (hsub x h)
      exact addNeighbors_inv lvl rest (vis ++ [nt]) _ _ hnd' hsub'

theorem addNeighbors_levels (lvl : Nat) (P : Nat → Prop) (hP : P lvl) :
    ∀ (cand : List (String × Relationship)) (vis : List String) (acc : LevelMap)
      (q : List (String × Nat × Option Relationship)),
      (∀ p ∈ acc, P p.1) →
      ∀ p ∈ (addNeighbors lvl cand vis acc q).2.1, P p.1
  | [], vis, acc, q, hacc => hacc
  | (nt, r) :: rest, vis, acc, q, hacc => by
    by_cases hv : nt ∈ vis
    · rw [addNeighbors, if_pos hv]
      exact addNeighbors_levels lvl P hP rest vis acc q hacc
    · rw [addNeighbors, if_neg hv]
      apply addNeighbors_levels lvl P hP rest _ _ _
      intro p hp
      rcases mem_ddAppend acc lvl (nt, r) p hp with h | h
      · rw [h]; exact hP
      · exact hacc p h

theorem khopLoop_nodup (bid : Bool) (maxN k : Nat) :
    ∀ (fuel : Nat) (q : List (String × Nat × Option Relationship))
      (vis : List String) (acc : LevelMap) (g : DatabaseGraph),
      (flattenTables acc).Nodup → (∀ x ∈ flattenTables acc, x ∈ vis) →
      (flattenTables (khopLoop bid maxN k fuel q vis acc g).1).Nodup
  | 0, _, _, _, _, hnd, _ => hnd
  | _ + 1, [], _, _, _, hnd, _ => hnd
  | fuel + 1, (t, lvl, orel) :: rest, vis, acc, g, hnd, hsub => by
    by_cases h : k ≤ lvl
    · rw [khopLoop_skip bid maxN k fuel t lvl orel rest vis acc g h]
      exact khopLoop_nodup bid maxN k fuel rest vis acc g hnd hsub
    · rw [khopLoop_step bid maxN k fuel t lvl orel rest vis acc g (Nat.not_le.mp h)]
      have hinv := addNeighbors_inv (lvl + 1) (cappedNeighbors g t bid maxN)
        vis acc rest hnd hsub
      exact khopLoop_nodup bid maxN k fuel _ _ _ g hinv.1 hinv.2

theorem khopLoop_levels (bid : Bool) (maxN k : Nat) :
    ∀ (fuel : Nat) (q : List (String × Nat × Option Relationship))
      (vis : List String) (acc : LevelMap) (g : DatabaseGraph),
      (∀ p ∈ acc, 1 ≤ p.1 ∧ p.1 ≤ k) →
      ∀ p ∈ (khopLoop bid maxN k fuel q vis acc g).1, 1 ≤ p.1 ∧ p.1 ≤ k
  | 0, _, _, _, _, hacc => hacc
  | _ + 1, [], _, _, _, hacc => hacc
  | fuel + 1, (t, lvl, orel) :: rest, vis, acc, g, hacc => by
    by_cases h : k ≤ lvl
    · rw [khopLoop_skip bid maxN k fuel t lvl orel rest vis acc g h]
      exact khopLoop_levels bid maxN k fuel rest vis acc g hacc
    · rw [khopLoop_step bid maxN k fuel t lvl orel rest vis acc g (Nat.not_le.mp h)]
      apply khopLoop_levels bid maxN k fuel _ _ _ g
      exact addNeighbors_levels (lvl + 1) (fun n => 1 ≤ n ∧ n ≤ k)
        ⟨Nat.succ_le_succ (Nat.zero_le lvl), Nat.succ_le_of_lt (Nat.not_le.mp h)⟩
        (cappedNeighbors g t bid maxN) vis acc rest hacc

theorem get_k_hop_nodup (g : DatabaseGraph) (s : String) (k : Nat) (bid : Bool)
    (maxN : Nat) : (flattenTables (get_k_hop_neighbors g s k bid maxN)).Nodup := by
  unfold get_k_hop_neighbors get_k_hop_neighborsS
  by_cases h1 : g.initialized = false
  · simp [h1, flattenTables]
  · by_cases h2 : (lookupA g.table_metadata s).isNone
    · simp [h1, h2, flattenTables]
    · simp only [h1, h2, if_false, Bool.false_eq_true]
      apply khopLoop_nodup
      · simp [flattenTables]
      · simp [flattenTables]

theorem get_k_hop_levels (g : DatabaseGraph) (s : String) (k : Nat) (bid : Bool)
    (maxN : Nat) :
    ∀ p ∈ get_k_hop_neighbors g s k bid maxN, 1 ≤ p.1 ∧ p.1 ≤ k := by
  unfold get_k_hop_neighbors get_k_hop_neighborsS
  by_cases h1 : g.initialized = false
  · simp [h1]
  · by_cases h2 : (lookupA g.table_metadata s).isNone
    · simp [h1, h2]
    · simp only [h1, h2, if_false, Bool.false_eq_true]
      apply khopLoop_levels
      simp

/-! ### Fan-out cap facts -/

theorem capList_length_le (g : DatabaseGraph) (maxN : Nat)
    (dn : List (String × Relationship)) : (capList g maxN dn).length ≤ maxN := by
  unfold capList
  by_cases h : maxN < dn.length
  · simp [h]
  · simp [h, Nat.le_of_not_lt h]

theorem capList_top (g : DatabaseGraph) (maxN : Nat)
    (dn : List (String × Relationship)) (h : maxN < dn.length) :
    capList g maxN dn =
      (dn.mergeSort (fun x y => decide (rowCountOf g y.1 ≤ rowCountOf g x.1))).take
        maxN ∧
    dn.Perm (capList g maxN dn ++
      (dn.mergeSort (fun x y => decide (rowCountOf g y.1 ≤ rowCountOf g x.1))).drop
        maxN) ∧
    ∀ x ∈ capList g maxN dn,
      ∀ y ∈ (dn.mergeSort
          (fun x y => decide (rowCountOf g y.1 ≤ rowCountOf g x.1))).drop maxN,
        rowCountOf g y.1 ≤ rowCountOf g x.1 := by
  have hcap : capList g maxN dn =
      (dn.mergeSort (fun x y => decide (rowCountOf g y.1 ≤ rowCountOf g x.1))).take
        maxN := by
    unfold capList
    rw [if_pos h]
  refine ⟨hcap, ?_, ?_⟩
  · rw [hcap, List.take_append_drop]
    exact (List.mergeSort_perm dn _).symm
  · have hsorted : (dn.mergeSort
        (fun x y => decide (rowCountOf g y.1 ≤ rowCountOf g x.1))).Pairwise
        (fun x y => decide (rowCountOf g y.1 ≤ rowCountOf g x.1) = true) := by
      apply List.sorted_mergeSort
      · intro a b c hab hbc
        simp only [decide_eq_true_eq] at hab hbc ⊢
        exact Nat.le_trans hbc hab
      · intro a b
        rcases Nat.le_total (rowCountOf g b.1) (rowCountOf g a.1) with hle | hle
        · simp [hle]
        · simp [hle]
    rw [hcap]
    intro x hx y hy
    have := (List.pairwise_append.mp (by
      rw [List.take_append_drop]
      exact hsorted)).2.2 x hx y hy
    simpa using this

theorem addNeighbors_queue_len (lvl : Nat) :
    ∀ (cand : List (String × Relationship)) (vis : List String) (acc : LevelMap)
      (q : List (String × Nat × Option Relationship)),
      (addNeighbors lvl cand vis acc q).2.2.length ≤ q.length + cand.length
  | [], vis, acc, q => Nat.le_refl _
  | (nt, r) :: rest, vis, acc, q => by
    by_cases hv : nt ∈ vis
    · rw [addNeighbors, if_pos hv]
      exact Nat.le_trans (addNeighbors_queue_len lvl rest vis acc q)
        (by simp [Nat.add_le_add_iff_left, Nat.le_succ])
    · rw [addNeighbors, if_neg hv]
      have := addNeighbors_queue_len lvl rest (vis ++ [nt])
        (ddAppend acc lvl (nt, r)) (q ++ [(nt, lvl, some r)])
      simp only [List.length_append, List.length_cons, List.length_nil] at this ⊢
      omega

theorem addNeighbors_recorded_len (lvl : Nat) :
    ∀ (cand : List (String × Relationship)) (vis : List String) (acc : LevelMap)
      (q : List (String × Nat × Option Relationship)),
      (flattenTables (addNeighbors lvl cand vis acc q).2.1).length ≤
        (flattenTables acc).length + cand.length
  | [], vis, acc, q => Nat.le_refl _
  | (nt, r) :: rest, vis, acc, q => by
    by_cases hv : nt ∈ vis
    · rw [addNeighbors, if_pos hv]
      exact Nat.le_trans (addNeighbors_recorded_len lvl rest vis acc q)
        (by simp [Nat.add_le_add_iff_left, Nat.le_succ])
    · rw [addNeighbors, if_neg hv]
      have h1 := addNeighbors_recorded_len lvl rest (vis ++ [nt])
        (ddAppend acc lvl (nt, r)) (q ++ [(nt, lvl, some r)])
      have h2 : (flattenTables (ddAppend acc lvl (nt, r))).length =
          (flattenTables acc).length + 1 := by
        rw [(flattenTables_ddAppend lvl nt r acc).length_eq]
        simp
      simp only [List.length_cons] at h1 ⊢
      omega

/-! ### Relevance scoring, stated the way the spec words it -/

/-- The per-token contribution as the spec words it: +50 for token inside
the table name, else +30 for table name inside the token. -/
def specContribution (table_lower : String) (t : String) : ℚ :=
  if substrOf t table_lower then 50
  else if substrOf table_lower t then 30
  else 0

/-- The claim's additive score with tokens DEDUPLICATED (this is what the
code computes: `set(user_query.lower().split())`). -/
def specScoreDedup (q table : String) (lvl : Nat) (r : Relationship) : ℚ :=
  (((pySplit (pyLower q)).dedup.filter
      (fun t => decide (3 < t.length))).map (specContribution (pyLower table))).sum
    - 10 * (lvl : ℚ) + (if r.cardinality = "many_to_one" then 15 else 0)
    + 10 * r.confidence

/-- The additive score exactly as the claim words it: one contribution per
whitespace token of the lowercased query (duplicates counted repeatedly). -/
def specScoreTok (q table : String) (lvl : Nat) (r : Relationship) : ℚ :=
  (((pySplit (pyLower q)).filter
      (fun t => decide (3 < t.length))).map (specContribution (pyLower table))).sum
    - 10 * (lvl : ℚ) + (if r.cardinality = "many_to_one" then 15 else 0)
    + 10 * r.confidence

theorem foldl_add_map (f : String → ℚ) :
    ∀ (l : List String) (c : ℚ), l.foldl (fun s x => s + f x) c = c + (l.map f).sum
  | [], c => by simp
  | x :: rest, c => by
    simp only [List.foldl_cons, List.map_cons, List.sum_cons,
      foldl_add_map f rest (c + f x)]
    ring

theorem sum_map_filter_zero (p : String → Bool) (f : String → ℚ)
    (hz : ∀ x, p x = false → f x = 0) :
    ∀ (l : List String), ((l.filter p).map f).sum = (l.map f).sum
  | [] => rfl
  | x :: rest => by
    by_cases hp : p x
    · simp only [List.filter_cons, hp, if_true, List.map_cons, List.sum_cons,
        sum_map_filter_zero p f hz rest]
    · have : p x = false := Bool.not_eq_true _ ▸ (by simpa using hp)
      simp only [List.filter_cons, this, Bool.false_eq_true, if_false,
        List.map_cons, List.sum_cons, hz x this,
        sum_map_filter_zero p f hz rest]
      ring

theorem scoreOf_eq_spec (q : String) (nb : Neighbor) :
    scoreOf (queryTerms q) nb =
      specScoreDedup q nb.table nb.level nb.relationship := by
  unfold scoreOf specScoreDedup queryTerms
  dsimp only
  rw [foldl_add_map]
  have hfz : ∀ x, (decide (3 < x.length) : Bool) = false →
      termScore (pyLower nb.table) x = 0 := by
    intro x hx
    simp only [decide_eq_false_iff_not] at hx
    simp [termScore, hx]
  rw [← sum_map_filter_zero _ _ hfz]
  have hmap : (((pySplit (pyLower q)).dedup.filter
        (fun t => decide (3 < t.length))).map (termScore (pyLower nb.table))) =
      (((pySplit (pyLower q)).dedup.filter
        (fun t => decide (3 < t.length))).map (specContribution (pyLower nb.table))) := by
    apply List.map_congr_left
    intro x hx
    have := (List.mem_filter.mp hx).2
    simp only [decide_eq_true_eq] at this
    simp [termScore, specContribution, this]
  rw [hmap]
  by_cases hc : nb.relationship.cardinality = "many_to_one"
  · simp only [hc, if_pos rfl, if_true]
    ring
  · simp only [if_neg hc]
    ring

theorem explore_scores (g : DatabaseGraph) (start_table user_query : String)
    (k maxT : Nat) (nb : Neighbor)
    (h : nb ∈ (explore_k_hop_neighborhood g start_table user_query k maxT).neighbors) :
    nb.relevance_score =
      specScoreDedup user_query nb.table nb.level nb.relationship := by
  simp only [explore_k_hop_neighborhood] at h
  have h1 := List.mem_mergeSort.mp (List.take_subset _ _ h)
  rcases List.mem_map.mp h1 with ⟨nb0, _, heq⟩
  rw [← heq]
  exact scoreOf_eq_spec user_query nb0

/-! ### Chains and shortest paths -/

/-- The bidirectional successors used by `get_path_between_tables`
(forward and reverse adjacency, always both). -/
def succsOf (g : DatabaseGraph) (t : String) : List (String × Relationship) :=
  rawCandidates g t true

/-- `isChain g rs a b`: the edge records `rs` form a connecting chain from
table `a` to table `b` in the bidirectional relationship graph. -/
def isChain (g : DatabaseGraph) : List Relationship → String → String → Prop
  | [], a, b => a = b
  | r :: rs, a, b => ∃ p ∈ succsOf g a, p.2 = r ∧ isChain g rs p.1 b

instance isChainDec (g : DatabaseGraph) :
    ∀ (rs : List Relationship) (a b : String), Decidable (isChain g rs a b)
  | [], a, b => decidable_of_iff (a = b) (by simp [isChain])
  | r :: rs, a, b =>
    haveI : ∀ p : String × Relationship, Decidable (p.2 = r ∧ isChain g rs p.1 b) :=
      fun p => @instDecidableAnd _ _ _ (isChainDec g rs p.1 b)
    decidable_of_iff (∃ p ∈ succsOf g a, p.2 = r ∧ isChain g rs p.1 b)
      (by simp [isChain])

theorem isChain_append (g : DatabaseGraph) :
    ∀ (pth : List Relationship) (a t : String) (s : String × Relationship),
      isChain g pth a t → s ∈ succsOf g t → isChain g (pth ++ [s.2]) a s.1
  | [], a, t, s, h, hs => by
    subst h
    exact ⟨s, hs, rfl, rfl⟩
  | r0 :: rs, a, t, s, h, hs => by
    rcases h with ⟨p0, hp0, hr0, hch⟩
    exact ⟨p0, hp0, hr0, isChain_append g rs p0.1 t s hch hs⟩

theorem chain_first_exit (g : DatabaseGraph) (vis : List String) (u : String)
    (hu : u ∉ vis) :
    ∀ (c : List Relationship) (a : String), a ∈ vis → isChain g c a u →
      ∃ c₁ v s c₂, c = c₁ ++ s.2 :: c₂ ∧ isChain g c₁ a v ∧ v ∈ vis ∧
        s ∈ succsOf g v ∧ s.1 ∉ vis ∧ isChain g c₂ s.1 u
  | [], a, ha, hc => absurd (hc ▸ ha) hu
  | r :: rs, a, ha, hc => by
    rcases hc with ⟨p, hp, hr, hch⟩
    by_cases hv : p.1 ∈ vis
    · rcases chain_first_exit g vis u hu rs p.1 hv hch with
        ⟨c₁, v, s, c₂, hsplit, hc₁, hvv, hs, hs1, hc₂⟩
      exact ⟨r :: c₁, v, s, c₂, by rw [hsplit]; rfl,
        ⟨p, hp, hr, hc₁⟩, hvv, hs, hs1, hc₂⟩
    · exact ⟨[], a, p, rs, by simp [hr], rfl, ha, hp, hv, hch⟩

theorem pushPaths_spec (pth : List Relationship) :
    ∀ (cand : List (String × Relationship)) (vis : List String)
      (q : List (String × List Relationship)),
      ∃ news newq,
        (pushPaths pth cand vis q).1 = vis ++ news ∧
        (pushPaths pth cand vis q).2 = q ++ newq ∧
        newq.map Prod.fst = news ∧
        news.Nodup ∧ (∀ n ∈ news, n ∉ vis) ∧
        (∀ e ∈ newq, ∃ s ∈ cand, e.1 = s.1 ∧ e.2 = pth ++ [s.2] ∧ s.1 ∉ vis) ∧
        (∀ s ∈ cand, s.1 ∈ vis ++ news)
  | [], vis, q =>
    ⟨[], [], by simp [pushPaths], by simp [pushPaths], rfl, List.nodup_nil,
      by simp, by simp, by simp⟩
  | (nt, r) :: rest, vis, q => by
    by_cases hv : nt ∈ vis
    · rcases pushPaths_spec pth rest vis q with
        ⟨news, newq, h1, h2, h3, h4, h5, h6, h7⟩
      refine ⟨news, newq, ?_, ?_, h3, h4, h5, ?_, ?_⟩
      · rw [pushPaths, if_pos hv]; exact h1
      · rw [pushPaths, if_pos hv]; exact h2
      · intro e he
        rcases h6 e he with ⟨s, hs, he1, he2, he3⟩
        exact ⟨s, List.mem_cons_of_mem _ hs, he1, he2, he3⟩
      · intro s hs
        rcases List.mem_cons.mp hs with h | h
        · rw [h]
          exact List.mem_append_left _ hv
        · exact h7 s h
    · rcases pushPaths_spec pth rest (vis ++ [nt]) (q ++ [(nt, pth ++ [r])]) with
        ⟨news, newq, h1, h2, h3, h4, h5, h6, h7⟩
      refine ⟨nt :: news, (nt, pth ++ [r]) :: newq, ?_, ?_, ?_, ?_, ?_, ?_, ?_⟩
      · rw [pushPaths, if_neg hv, h1, List.append_assoc]
        rfl
      · rw [pushPaths, if_neg hv, h2, List.append_assoc]
        rfl
      · simp [h3]
      · refine List.nodup_cons.mpr ⟨fun hmem => ?_, h4⟩
        exact (h5 nt hmem) (List.mem_append_right _ (List.mem_singleton.mpr rfl))
      · intro n hn
        rcases List.mem_cons.mp hn with h | h
        · rw [h]; exact hv
        · intro hvv
          exact (h5 n h) (List.mem_append_left _ hvv)
      · intro e he
        rcases List.mem_cons.mp he with h | h
        · exact ⟨(nt, r), List.mem_cons_self _ _, by rw [h], by rw [h], hv⟩
        · rcases h6 e h with ⟨s, hs, he1, he2, he3⟩
          refine ⟨s, List.mem_cons_of_mem _ hs, he1, he2, fun hvv => ?_⟩
          exact he3 (List.mem_append_left _ hvv)
      · intro s hs
        rcases List.mem_cons.mp hs with h | h
        · rw [h]
          exact List.mem_append_right _ (List.mem_cons_self _ _)
        · have := h7 s h
          rcases List.mem_append.mp this with h' | h'
          · rcases List.mem_append.mp h' with h'' | h''
            · exact List.mem_append_left _ h''
            · have : s.1 ∈ nt :: news := by
                rw [List.mem_singleton.mp h'']
                exact List.mem_cons_self _ _
              exact List.mem_append_right _ this
          · exact List.mem_append_right _ (List.mem_cons_of_mem _ h')

/-- The BFS loop invariant for `get_path_between_tables`: queue entries are
valid chains from `a` whose endpoints are visited, queue lengths are
nondecreasing and within 1 of each other, each table has at most one queue
entry, every queue entry carries a shortest chain to its table (among
chains shorter than the depth bound), and every visited table either still
sits in the queue, or has been fully expanded, or was cut by the depth
bound (in which case every chain to it has length at least `max_depth`). -/
structure PathInv (g : DatabaseGraph) (a : String) (maxd : Nat)
    (q : List (String × List Relationship)) (vis : List String) : Prop where
  entries : ∀ e ∈ q, isChain g e.2 a e.1 ∧ e.1 ∈ vis
  sorted : q.Pairwise (fun x y => x.2.length ≤ y.2.length)
  tight : ∀ x ∈ q, ∀ y ∈ q, x.2.length ≤ y.2.length + 1
  nodupT : (q.map Prod.fst).Nodup
  shortest : ∀ e ∈ q, ∀ c, isChain g c a e.1 → c.length < maxd →
    e.2.length ≤ c.length
  procd : ∀ v ∈ vis, (∃ pth, (v, pth) ∈ q) ∨ (∀ s ∈ succsOf g v, s.1 ∈ vis) ∨
    (∀ c, isChain g c a v → maxd ≤ c.length)
  avis : a ∈ vis

theorem pathLoop_min (g : DatabaseGraph) (a tb : String) (maxd : Nat) :
    ∀ (fuel : Nat) (q : List (String × List Relationship)) (vis : List String),
      PathInv g a maxd q vis →
      ∀ p, (pathLoop tb maxd fuel q vis g).1 = some p →
        isChain g p a tb ∧ ∀ c, isChain g c a tb → p.length ≤ c.length
  | 0, _, _, _, _, h => nomatch h
  | _ + 1, [], _, _, _, h => nomatch h
  | fuel + 1, (t, pt) :: rest, vis, inv, p, h => by
    by_cases h1 : maxd ≤ pt.length
    · rw [pathLoop_skip tb maxd fuel t pt rest vis g h1] at h
      refine pathLoop_min g a tb maxd fuel rest vis ?_ p h
      refine ⟨fun e he => inv.entries e (List.mem_cons_of_mem _ he),
        (List.pairwise_cons.mp inv.sorted).2,
        fun x hx y hy => inv.tight x (List.mem_cons_of_mem _ hx) y
          (List.mem_cons_of_mem _ hy),
        (List.nodup_cons.mp inv.nodupT).2,
        fun e he => inv.shortest e (List.mem_cons_of_mem _ he),
        fun v hv => ?_, inv.avis⟩
      rcases inv.procd v hv with ⟨pv, hpv⟩ | h2 | h3
      · rcases List.mem_cons.mp hpv with hh | hh
        · right; right
          intro c hc
          by_contra hno
          have hlt : c.length < maxd := Nat.not_le.mp hno
          have hle : pt.length ≤ c.length := inv.shortest (t, pt)
            (List.mem_cons_self _ _) c
            (by rw [show t = v from (congrArg Prod.fst hh.symm)]; exact hc) hlt
          omega
        · exact Or.inl ⟨pv, hh⟩
      · exact Or.inr (Or.inl h2)
      · exact Or.inr (Or.inr h3)
    · by_cases h2 : t = tb
      · subst h2
        rw [pathLoop_found t maxd fuel pt rest vis g (Nat.not_le.mp h1)] at h
        have hp : p = pt := by
          have := congrArg (fun o => o) h
          simp at h
          exact h.symm
        subst hp
        refine ⟨(inv.entries (t, p) (List.mem_cons_self _ _)).1, fun c hc => ?_⟩
        by_cases hcd : c.length < maxd
        · exact inv.shortest (t, p) (List.mem_cons_self _ _) c hc hcd
        · exact Nat.le_trans (Nat.le_of_lt (Nat.not_le.mp h1))
            (Nat.le_of_not_lt hcd)
      · rw [pathLoop_step tb maxd fuel t pt rest vis g (Nat.not_le.mp h1) h2] at h
        rcases pushPaths_spec pt (rawCandidates g t true) vis rest with
          ⟨news, newq, e1, e2, e3, e4, e5, e6, e7⟩
        rw [e1, e2] at h
        have hHeadChain : isChain g pt a t :=
          (inv.entries (t, pt) (List.mem_cons_self _ _)).1
        have hSortHead : ∀ y ∈ rest, pt.length ≤ y.2.length := by
          intro y hy
          exact (List.pairwise_cons.mp inv.sorted).1 y hy
        have hNewLen : ∀ e ∈ newq, e.2.length = pt.length + 1 := by
          intro e he
          rcases e6 e he with ⟨s, _, _, he2, _⟩
          rw [he2]
          simp
        have hNewChain : ∀ e ∈ newq, isChain g e.2 a e.1 := by
          intro e he
          rcases e6 e he with ⟨s, hs, he1, he2, _⟩
          rw [he1, he2]
          exact isChain_append g pt a t s hHeadChain hs
        have hRestVis : ∀ e ∈ rest, e.1 ∈ vis := by
          intro e he
          exact (inv.entries e (List.mem_cons_of_mem _ he)).2
        refine pathLoop_min g a tb maxd fuel (rest ++ newq) (vis ++ news)
          ⟨?_, ?_, ?_, ?_, ?_, ?_, List.mem_append_left _ inv.avis⟩ p h
        · intro e he
          rcases List.mem_append.mp he with hh | hh
          · exact ⟨(inv.entries e (List.mem_cons_of_mem _ hh)).1,
              List.mem_append_left _ (hRestVis e hh)⟩
          · refine ⟨hNewChain e hh, ?_⟩
            rcases e6 e hh with ⟨s, hs, he1, _, _⟩
            rw [he1]
            exact e7 s hs
        · refine List.pairwise_append.mpr
            ⟨(List.pairwise_cons.mp inv.sorted).2, ?_, ?_⟩
          · apply List.pairwise_of_forall_mem_list
            intro x hx y hy
            rw [hNewLen x hx, hNewLen y hy]
          · intro x hx y hy
            rw [hNewLen y hy]
            exact inv.tight x (List.mem_cons_of_mem _ hx) (t, pt)
              (List.mem_cons_self _ _)
        · intro x hx y hy
          rcases List.mem_append.mp hx with hhx | hhx <;>
            rcases List.mem_append.mp hy with hhy | hhy
          · exact inv.tight x (List.mem_cons_of_mem _ hhx) y
              (List.mem_cons_of_mem _ hhy)
          · rw [hNewLen y hhy]
            have hx2 : x.2.length ≤ pt.length + 1 := inv.tight x
              (List.mem_cons_of_mem _ hhx) (t, pt) (List.mem_cons_self _ _)
            omega
          · rw [hNewLen x hhx]
            have := hSortHead y hhy
            omega
          · rw [hNewLen x hhx, hNewLen y hhy]
            omega
        · rw [List.map_append, e3]
          refine List.Nodup.append ((List.nodup_cons.mp inv.nodupT).2) e4 ?_
          intro x hx1 hx2
          rcases List.mem_map.mp hx1 with ⟨e, he, hex⟩
          exact (e5 x hx2) (hex ▸ hRestVis e he)
        · intro e he c hc hcd
          rcases List.mem_append.mp he with hh | hh
          · exact inv.shortest e (List.mem_cons_of_mem _ hh) c hc hcd
          · rw [hNewLen e hh]
            by_contra hno
            have hclen : c.length ≤ pt.length := by omega
            rcases e6 e hh with ⟨s, _, he1, _, he3⟩
            have hu : e.1 ∉ vis := he1 ▸ he3
            rcases chain_first_exit g vis e.1 hu c a inv.avis hc with
              ⟨c₁, v, s', c₂, hsplit, hc₁, hvv, hs', hs1, _⟩
            have hlen : c.length = c₁.length + c₂.length + 1 := by
              rw [hsplit]
              simp
              omega
            rcases inv.procd v hvv with ⟨pv, hpv⟩ | hfull | hcut
            · have hpvlen : pt.length ≤ pv.length := by
                rcases List.mem_cons.mp hpv with hh' | hh'
                · have hpp : pv = pt := congrArg Prod.snd hh'
                  rw [hpp]
                · exact hSortHead (v, pv) hh'
              have hshort : pv.length ≤ c₁.length :=
                inv.shortest (v, pv) hpv c₁ hc₁ (by omega)
              omega
            · exact hs1 (hfull s' hs')
            · have := hcut c₁ hc₁
              omega
        · intro v hv
          rcases List.mem_append.mp hv with hh | hh
          · rcases inv.procd v hh with ⟨pv, hpv⟩ | hfull | hcut
            · rcases List.mem_cons.mp hpv with hh' | hh'
              · right; left
                intro s'' hs''
                have hvt : v = t := congrArg Prod.fst hh'
                exact e7 s'' (hvt ▸ hs'')
              · exact Or.inl ⟨pv, List.mem_append_left _ hh'⟩
            · exact Or.inr (Or.inl fun s'' hs'' =>
                List.mem_append_left _ (hfull s'' hs''))
            · exact Or.inr (Or.inr hcut)
          · left
            have : v ∈ newq.map Prod.fst := e3 ▸ hh
            rcases List.mem_map.mp this with ⟨e, he, hev⟩
            refine ⟨e.2, List.mem_append_right _ ?_⟩
            rw [show (v, e.2) = e from by rw [← hev]]
            exact he

theorem get_path_min (g : DatabaseGraph) (a b : String) (maxd : Nat)
    (p : List Relationship) (h : get_path_between_tables g a b maxd = some p) :
    isChain g p a b ∧ ∀ c, isChain g c a b → p.length ≤ c.length := by
  unfold get_path_between_tables get_path_between_tablesS at h
  by_cases h1 : g.initialized = false
  · simp [h1] at h
  · by_cases h2 : (lookupA g.table_metadata a).isNone ||
      (lookupA g.table_metadata b).isNone
    · simp [h1, h2] at h
    · simp only [h1, h2, if_false, Bool.false_eq_true] at h
      refine pathLoop_min g a b maxd (graphFuel g) [(a, [])] [a] ?_ p h
      refine ⟨?_, ?_, ?_, ?_, ?_, ?_, List.mem_singleton.mpr rfl⟩
      · intro e he
        rw [List.mem_singleton.mp he]
        exact ⟨rfl, List.mem_singleton.mpr rfl⟩
      · exact List.pairwise_singleton _ _
      · intro x hx y hy
        rw [List.mem_singleton.mp hx, List.mem_singleton.mp hy]
        exact Nat.zero_le _
      · simp
      · intro e he c hc hcd
        rw [List.mem_singleton.mp he]
        exact Nat.zero_le _
      · intro v hv
        left
        refine ⟨[], ?_⟩
        rw [List.mem_singleton.mp hv]
        exact List.mem_singleton.mpr rfl

/-! ### The three relationship records of the example graph -/

def relOC : Relationship := mkRel "orders" fkOC

def relOLO : Relationship := mkRel "orders_lines" fkOLO

def relOLP : Relationship := mkRel "orders_lines" fkOLP

/-! ### Claim theorems -/

/-- C1: the claim (and the spec's Scenario 2) says that on the example graph
`get_path_between_tables("clients", "products", max_depth=3)` returns the
connecting 3-edge chain, i.e. that a path of exactly `max_depth` edges is
returned rather than reported not-found.  The code does the opposite: the
depth cut `len(path) >= max_depth: continue` is tested BEFORE the target
test, so the queue entry holding `products` with its 3-edge path is
discarded and `None` is returned.  This theorem evaluates the code at the
claim's own input: the 3-edge chain exists (and is returned once
`max_depth = 4`), yet `max_depth = 3` yields not-found. -/
theorem claim_C1_path_depth_cutoff :
    get_path_between_tables exGraph "clients" "products" 3 = none ∧
    isChain exGraph [mirror relOC, mirror relOLO, relOLP] "clients" "products" ∧
    get_path_between_tables exGraph "clients" "products" 4 =
      some [mirror relOC, mirror relOLO, relOLP] :=
  ⟨by decide, by decide, by decide⟩

/-- C2 (as stated, refuted): the claim says every neighbor's
`relevance_score` adds a contribution FOR EACH whitespace token of the
lowercased query.  The code collapses the tokens into a `set` first, so a
duplicated token contributes once.  At the example graph, start table
`clients`, query `"orders orders"`: the produced neighbor `orders` has
score 50 (one +50 token match, −10 depth, +10 confidence), while the
claim's per-token formula gives 100; 50 ≠ 100, refuting the claim at this
input. -/
theorem claim_C2_counterexample :
    (explore_k_hop_neighborhood exGraph "clients" "orders orders" 1 5).neighbors =
      [⟨"orders", 1, mirror relOC, 50⟩] ∧
    specScoreTok "orders orders" "orders" 1 (mirror relOC) = 100 ∧
    (50 : ℚ) ≠ 100 := by
  refine ⟨?_, ?_, by norm_num⟩
  · simp only [explore_k_hop_neighborhood]
    rw [show get_k_hop_neighbors exGraph "clients" 1 true 10 =
      [(1, [("orders", mirror relOC)])] from by decide]
    simp only [List.flatMap_cons, List.flatMap_nil, List.map_cons, List.map_nil,
      List.append_nil]
    rw [show scoreOf (queryTerms "orders orders") ⟨"orders", 1, mirror relOC, 0⟩ = 50
      from by
        rw [show queryTerms "orders orders" = ["orders"] from by decide]
        simp only [scoreOf, termScore, List.foldl_cons, List.foldl_nil]
        rw [show substrOf "orders" (pyLower "orders") = true from by decide,
          show "orders".length = 6 from by decide,
          if_neg (show ¬((mirror relOC).cardinality = "many_to_one") from by decide),
          show (mirror relOC).confidence = 1 from by decide]
        norm_num]
    simp [List.mergeSort]
  · simp only [specScoreTok]
    rw [show ((pySplit (pyLower "orders orders")).filter
        (fun t => decide (3 < t.length))).map (specContribution (pyLower "orders")) =
      [50, 50] from by decide,
      if_neg (show ¬((mirror relOC).cardinality = "many_to_one") from by decide),
      show (mirror relOC).confidence = 1 from by decide]
    norm_num

/-- C2 (amended): for every neighbor produced by
`explore_k_hop_neighborhood` with query text q, its `relevance_score`
equals the additive formula applied to the DISTINCT whitespace tokens of
the lowercased query (duplicates collapsed, as the code builds a set):
per distinct token of length > 3, +50 if the token is a substring of the
lowercased table name, else +30 if the table name is a substring of the
token; plus −10 × hop level, +15 if the connecting edge's cardinality is
`many_to_one`, and +10 × the edge's confidence. -/
theorem claim_C2_amended (g : DatabaseGraph) (start_table user_query : String)
    (k maxT : Nat) (nb : Neighbor)
    (h : nb ∈ (explore_k_hop_neighborhood g start_table user_query k maxT).neighbors) :
    nb.relevance_score = specScoreDedup user_query nb.table nb.level nb.relationship :=
  explore_scores g start_table user_query k maxT nb h

theorem claim_C2_amended_witness :
    (⟨"orders", 1, mirror relOC, 50⟩ : Neighbor) ∈
      (explore_k_hop_neighborhood exGraph "clients" "orders orders" 1 5).neighbors ∧
    (50 : ℚ) = specScoreDedup "orders orders" "orders" 1 (mirror relOC) := by
  have hN : (explore_k_hop_neighborhood exGraph "clients" "orders orders" 1
      5).neighbors = [⟨"orders", 1, mirror relOC, 50⟩] := by
    simp only [explore_k_hop_neighborhood]
    rw [show get_k_hop_neighbors exGraph "clients" 1 true 10 =
      [(1, [("orders", mirror relOC)])] from by decide]
    simp only [List.flatMap_cons, List.flatMap_nil, List.map_cons, List.map_nil,
      List.append_nil]
    rw [show scoreOf (queryTerms "orders orders") ⟨"orders", 1, mirror relOC, 0⟩ = 50
      from by
        rw [show queryTerms "orders orders" = ["orders"] from by decide]
        simp only [scoreOf, termScore, List.foldl_cons, List.foldl_nil]
        rw [show substrOf "orders" (pyLower "orders") = true from by decide,
          show "orders".length = 6 from by decide,
          if_neg (show ¬((mirror relOC).cardinality = "many_to_one") from by decide),
          show (mirror relOC).confidence = 1 from by decide]
        norm_num]
    simp [List.mergeSort]
  have hmem : (⟨"orders", 1, mirror relOC, 50⟩ : Neighbor) ∈
      (explore_k_hop_neighborhood exGraph "clients" "orders orders" 1 5).neighbors := by
    rw [hN]
    exact List.mem_cons_self _ _
  exact ⟨hmem,
    claim_C2_amended exGraph "clients" "orders orders" 1 5 _ hmem⟩

/-- C3: after `initialize()` on a catalog with distinct table names and
pairwise-distinct declared foreign keys, every declared FK from child `A`
to parent `B = fkRef fk` appears exactly once as a forward edge
`(A → B, many_to_one)` in the forward adjacency, exactly once as the
mirror reverse edge `(B → A bucket, one_to_many)` in the reverse
adjacency, and exactly once in `get_all_relationships()` (reverse mirrors
are never appended there). -/
theorem claim_C3_symmetry (cat : Catalog) (A : String) (fk : FK)
    (hnd : cat.tables.Nodup) (hrels : (allRels cat).Nodup)
    (hA : A ∈ cat.tables) (hfk : fk ∈ validFks cat A) :
    (entriesAt (initGraph DatabaseGraph.empty cat).graph A).count
      (fkRef fk, mkRel A fk) = 1 ∧
    (mkRel A fk).cardinality = "many_to_one" ∧
    (entriesAt (initGraph DatabaseGraph.empty cat).reverse_graph (fkRef fk)).count
      (A, mirror (mkRel A fk)) = 1 ∧
    (mirror (mkRel A fk)).cardinality = "one_to_many" ∧
    (get_all_relationships (initGraph DatabaseGraph.empty cat)).count
      (mkRel A fk) = 1 := by
  refine ⟨graph_count_one cat A fk hnd hrels hA hfk, rfl,
    reverse_count_one cat A fk hnd hrels hA hfk, rfl, ?_⟩
  show (initGraph DatabaseGraph.empty cat).relationships.count (mkRel A fk) = 1
  rw [initGraph_relationships]
  exact rels_count_one cat A fk hrels hA hfk

theorem claim_C3_symmetry_witness :
    (entriesAt (initGraph DatabaseGraph.empty exCatalog).graph "orders").count
      (fkRef fkOC, mkRel "orders" fkOC) = 1 ∧
    (mkRel "orders" fkOC).cardinality = "many_to_one" ∧
    (entriesAt (initGraph DatabaseGraph.empty exCatalog).reverse_graph
      (fkRef fkOC)).count ("orders", mirror (mkRel "orders" fkOC)) = 1 ∧
    (mirror (mkRel "orders" fkOC)).cardinality = "one_to_many" ∧
    (get_all_relationships (initGraph DatabaseGraph.empty exCatalog)).count
      (mkRel "orders" fkOC) = 1 :=
  claim_C3_symmetry exCatalog "orders" fkOC (by decide) (by decide) (by decide)
    (by decide)

/-- C4: the fan-out cap of `get_k_hop_neighbors`.  The capped candidate
list never exceeds `max_neighbors_per_level`; when the combined candidate
list exceeds the cap, the kept candidates are exactly the first
`max_neighbors_per_level` of the stable sort descending by the neighbor
table's estimated row count (so every dropped candidate's row count is at
most every kept candidate's); and the per-parent recording/enqueueing step
(`addNeighbors`, fed with the capped list) appends at most
`max_neighbors_per_level` entries to the queue and to the level buckets. -/
theorem claim_C4_fanout_cap (g : DatabaseGraph) (t : String) (bid : Bool)
    (maxN lvl : Nat) (vis : List String) (acc : LevelMap)
    (q : List (String × Nat × Option Relationship)) :
    (cappedNeighbors g t bid maxN).length ≤ maxN ∧
    (maxN < (rawCandidates g t bid).length →
      cappedNeighbors g t bid maxN =
        ((rawCandidates g t bid).mergeSort
          (fun x y => decide (rowCountOf g y.1 ≤ rowCountOf g x.1))).take maxN ∧
      (rawCandidates g t bid).Perm (cappedNeighbors g t bid maxN ++
        ((rawCandidates g t bid).mergeSort
          (fun x y => decide (rowCountOf g y.1 ≤ rowCountOf g x.1))).drop maxN) ∧
      ∀ x ∈ cappedNeighbors g t bid maxN,
        ∀ y ∈ ((rawCandidates g t bid).mergeSort
            (fun x y => decide (rowCountOf g y.1 ≤ rowCountOf g x.1))).drop maxN,
          rowCountOf g y.1 ≤ rowCountOf g x.1) ∧
    (addNeighbors lvl (cappedNeighbors g t bid maxN) vis acc q).2.2.length ≤
      q.length + maxN ∧
    (flattenTables
        (addNeighbors lvl (cappedNeighbors g t bid maxN) vis acc q).2.1).length ≤
      (flattenTables acc).length + maxN := by
  refine ⟨capList_length_le g maxN _, fun h => capList_top g maxN _ h, ?_, ?_⟩
  · exact Nat.le_trans (addNeighbors_queue_len lvl _ vis acc q)
      (Nat.add_le_add_left (capList_length_le g maxN _) _)
  · exact Nat.le_trans (addNeighbors_recorded_len lvl _ vis acc q)
      (Nat.add_le_add_left (capList_length_le g maxN _) _)

theorem claim_C4_fanout_cap_witness :
    (cappedNeighbors exGraph "orders" true 1).length ≤ 1 ∧
    (cappedNeighbors exGraph "orders" true 1 =
        ((rawCandidates exGraph "orders" true).mergeSort
          (fun x y => decide (rowCountOf exGraph y.1 ≤ rowCountOf exGraph x.1))).take 1 ∧
      (rawCandidates exGraph "orders" true).Perm
        (cappedNeighbors exGraph "orders" true 1 ++
          ((rawCandidates exGraph "orders" true).mergeSort
            (fun x y =>
              decide (rowCountOf exGraph y.1 ≤ rowCountOf exGraph x.1))).drop 1) ∧
      ∀ x ∈ cappedNeighbors exGraph "orders" true 1,
        ∀ y ∈ ((rawCandidates exGraph "orders" true).mergeSort
            (fun x y =>
              decide (rowCountOf exGraph y.1 ≤ rowCountOf exGraph x.1))).drop 1,
          rowCountOf exGraph y.1 ≤ rowCountOf exGraph x.1) ∧
    (addNeighbors 2 (cappedNeighbors exGraph "orders" true 1) [] [] []).2.2.length ≤
      0 + 1 ∧
    (flattenTables
        (addNeighbors 2 (cappedNeighbors exGraph "orders" true 1) [] [] []).2.1).length ≤
      (flattenTables []).length + 1 := by
  have h := claim_C4_fanout_cap exGraph "orders" true 1 2 [] [] []
  exact ⟨h.1, h.2.1 (by decide), h.2.2.1, h.2.2.2⟩

/-- C5: the no-revisit invariant of `get_k_hop_neighbors`: across the
whole returned mapping, each table name is recorded at most once — the
flattening of all level buckets is duplicate-free, so a table appears in
at most one bucket and at most once inside it. -/
theorem claim_C5_no_revisit (g : DatabaseGraph) (s : String) (k : Nat)
    (bid : Bool) (maxN : Nat) :
    (flattenTables (get_k_hop_neighbors g s k bid maxN)).Nodup :=
  get_k_hop_nodup g s k bid maxN

/-- C6: every hop level present as a key of the mapping returned by
`get_k_hop_neighbors` lies in `1..k`; no neighbor is recorded at a level
greater than `k`. -/
theorem claim_C6_depth_bound (g : DatabaseGraph) (s : String) (k : Nat)
    (bid : Bool) (maxN : Nat) (p : Nat × List (String × Relationship))
    (h : p ∈ get_k_hop_neighbors g s k bid maxN) : 1 ≤ p.1 ∧ p.1 ≤ k :=
  get_k_hop_levels g s k bid maxN p h

theorem claim_C6_depth_bound_witness :
    (1, [("orders", mirror relOC)]) ∈ get_k_hop_neighbors exGraph "clients" 2 true 10 ∧
    (1 ≤ (1 : Nat) ∧ (1 : Nat) ≤ 2) :=
  ⟨by decide, claim_C6_depth_bound exGraph "clients" 2 true 10
    (1, [("orders", mirror relOC)]) (by decide)⟩

/-- C7: whenever `get_path_between_tables(a, b, max_depth)` returns a path,
that path is a genuine connecting chain from `a` to `b` in the
bidirectional relationship graph and its edge count equals the shortest
bidirectional hop distance between `a` and `b` (no shorter chain exists). -/
theorem claim_C7_path_minimality (g : DatabaseGraph) (a b : String) (maxd : Nat)
    (p : List Relationship) (h : get_path_between_tables g a b maxd = some p) :
    isChain g p a b ∧ ∀ c, isChain g c a b → p.length ≤ c.length :=
  get_path_min g a b maxd p h

theorem claim_C7_path_minimality_witness :
    get_path_between_tables exGraph "clients" "orders" 3 = some [mirror relOC] ∧
    (isChain exGraph [mirror relOC] "clients" "orders" ∧
      ∀ c, isChain exGraph c "clients" "orders" → [mirror relOC].length ≤ c.length) :=
  ⟨by decide, claim_C7_path_minimality exGraph "clients" "orders" 3 [mirror relOC]
    (by decide)⟩

/-- C8: calling `get_k_hop_neighbors` on an uninitialized graph, or with a
start table absent from the metadata map, returns the empty mapping and
(being a total function in this embedding) raises nothing; likewise
`get_path_between_tables` returns `None` when the graph is uninitialized
or either endpoint is absent. -/
theorem claim_C8_degenerate_inputs (g : DatabaseGraph) (s : String) (k : Nat)
    (bid : Bool) (maxN : Nat) (a b : String) (maxd : Nat) :
    (g.initialized = false →
      get_k_hop_neighbors g s k bid maxN = [] ∧
      get_path_between_tables g a b maxd = none) ∧
    (lookupA g.table_metadata s = none → get_k_hop_neighbors g s k bid maxN = []) ∧
    (lookupA g.table_metadata a = none →
      get_path_between_tables g a b maxd = none) ∧
    (lookupA g.table_metadata b = none →
      get_path_between_tables g a b maxd = none) := by
  refine ⟨fun h => ⟨?_, ?_⟩, fun h => ?_, fun h => ?_, fun h => ?_⟩
  · simp [get_k_hop_neighbors, get_k_hop_neighborsS, h]
  · simp [get_path_between_tables, get_path_between_tablesS, h]
  · unfold get_k_hop_neighbors get_k_hop_neighborsS
    by_cases h1 : g.initialized = false
    · simp [h1]
    · simp [h1, h]
  · unfold get_path_between_tables get_path_between_tablesS
    by_cases h1 : g.initialized = false
    · simp [h1]
    · simp [h1, h]
  · unfold get_path_between_tables get_path_between_tablesS
    by_cases h1 : g.initialized = false
    · simp [h1]
    · simp [h1, h]

theorem claim_C8_degenerate_inputs_witness :
    get_k_hop_neighbors DatabaseGraph.empty "clients" 2 true 10 = [] ∧
    get_path_between_tables DatabaseGraph.empty "clients" "orders" 3 = none ∧
    get_k_hop_neighbors exGraph "nope" 2 true 10 = [] ∧
    get_path_between_tables exGraph "nope" "clients" 3 = none ∧
    get_path_between_tables exGraph "clients" "nope" 3 = none := by
  refine ⟨((claim_C8_degenerate_inputs DatabaseGraph.empty "clients" 2 true 10
      "clients" "orders" 3).1 rfl).1,
    ((claim_C8_degenerate_inputs DatabaseGraph.empty "clients" 2 true 10
      "clients" "orders" 3).1 rfl).2,
    (claim_C8_degenerate_inputs exGraph "nope" 2 true 10
      "nope" "clients" 3).2.1 (by decide),
    (claim_C8_degenerate_inputs exGraph "nope" 2 true 10
      "nope" "clients" 3).2.2.1 (by decide),
    (claim_C8_degenerate_inputs exGraph "nope" 2 true 10
      "clients" "nope" 3).2.2.2 (by decide)⟩

/-- C9: every read operation — `get_k_hop_neighbors`,
`get_path_between_tables`, `get_all_relationships`, `get_table_info`,
`get_connected_tables`, `get_graph_stats` — leaves the whole graph state
(forward adjacency, reverse adjacency, metadata map, relationships list,
initialized flag) unchanged for every argument, including table names
absent from the graph: every `defaultdict` access in them is guarded by a
membership test, so the adjacency maps gain no keys. -/
theorem claim_C9_reads_pure (g : DatabaseGraph) (s : String) (k : Nat)
    (bid : Bool) (maxN : Nat) (a b : String) (maxd : Nat) (t u : String) :
    (get_k_hop_neighborsS g s k bid maxN).2 = g ∧
    (get_path_between_tablesS g a b maxd).2 = g ∧
    (get_all_relationshipsS g).2 = g ∧
    (get_table_infoS g t).2 = g ∧
    (get_connected_tablesS g u).2 = g ∧
    (get_graph_statsS g).2 = g :=
  ⟨get_k_hop_neighborsS_frame g s k bid maxN,
    get_path_between_tablesS_frame g a b maxd, rfl, rfl,
    get_connected_tablesS_frame g u, get_graph_statsS_frame g⟩

/-- C10: for every declared foreign key of child `A` referring to parent
`B = fkRef fk`, the record stored in the reverse adjacency under `B` is
the pair `(A, mirror)` where `mirror` is a copy of the forward record in
which ONLY the cardinality is changed to `one_to_many`: its
`from_table`/`from_column` still name the child side and its
`to_table`/`to_column` still name the parent side, exactly as in the
forward edge, even though the stored adjacency direction is
parent → child; the forward record itself sits in `relationships`. -/
theorem claim_C10_mirror_copy (cat : Catalog) (A : String) (fk : FK)
    (hA : A ∈ cat.tables) (hfk : fk ∈ validFks cat A) :
    (A, mirror (mkRel A fk)) ∈
      entriesAt (initGraph DatabaseGraph.empty cat).reverse_graph (fkRef fk) ∧
    mirror (mkRel A fk) = { mkRel A fk with cardinality := "one_to_many" } ∧
    (mirror (mkRel A fk)).from_table = (mkRel A fk).from_table ∧
    (mirror (mkRel A fk)).from_table = A ∧
    (mirror (mkRel A fk)).from_column = (mkRel A fk).from_column ∧
    (mirror (mkRel A fk)).to_table = (mkRel A fk).to_table ∧
    (mirror (mkRel A fk)).to_table = fkRef fk ∧
    (mirror (mkRel A fk)).to_column = (mkRel A fk).to_column ∧
    (mirror (mkRel A fk)).confidence = (mkRel A fk).confidence ∧
    (mirror (mkRel A fk)).rel_type = (mkRel A fk).rel_type ∧
    (mirror (mkRel A fk)).cardinality = "one_to_many" ∧
    (mkRel A fk).cardinality = "many_to_one" ∧
    mkRel A fk ∈ (initGraph DatabaseGraph.empty cat).relationships :=
  ⟨mirror_mem_reverse cat A fk hA hfk, rfl, rfl, rfl, rfl, rfl, rfl, rfl, rfl,
    rfl, rfl, rfl, fwdRel_mem_relationships cat A fk hA hfk⟩

theorem claim_C10_mirror_copy_witness :
    ("orders_lines", mirror (mkRel "orders_lines" fkOLP)) ∈
      entriesAt (initGraph DatabaseGraph.empty exCatalog).reverse_graph
        (fkRef fkOLP) ∧
    mirror (mkRel "orders_lines" fkOLP) =
      { mkRel "orders_lines" fkOLP with cardinality := "one_to_many" } ∧
    (mirror (mkRel "orders_lines" fkOLP)).from_table =
      (mkRel "orders_lines" fkOLP).from_table ∧
    (mirror (mkRel "orders_lines" fkOLP)).from_table = "orders_lines" ∧
    (mirror (mkRel "orders_lines" fkOLP)).from_column =
      (mkRel "orders_lines" fkOLP).from_column ∧
    (mirror (mkRel "orders_lines" fkOLP)).to_table =
      (mkRel "orders_lines" fkOLP).to_table ∧
    (mirror (mkRel "orders_lines" fkOLP)).to_table = fkRef fkOLP ∧
    (mirror (mkRel "orders_lines" fkOLP)).to_column =
      (mkRel "orders_lines" fkOLP).to_column ∧
    (mirror (mkRel "orders_lines" fkOLP)).confidence =
      (mkRel "orders_lines" fkOLP).confidence ∧
    (mirror (mkRel "orders_lines" fkOLP)).rel_type =
      (mkRel "orders_lines" fkOLP).rel_type ∧
    (mirror (mkRel "orders_lines" fkOLP)).cardinality = "one_to_many" ∧
    (mkRel "orders_lines" fkOLP).cardinality = "many_to_one" ∧
    mkRel "orders_lines" fkOLP ∈
      (initGraph DatabaseGraph.empty exCatalog).relationships :=
  claim_C10_mirror_copy exCatalog "orders_lines" fkOLP (by decide) (by decide)
